import Mathlib

/-!
MultiQueueProcessor.

A shallow embedding of `src/MultiQueueProcessor.h` (namespace `mqp`) and the
properties of its registry, channel store and dispatch pass.

Modelling decisions.

* `std::unordered_map<K, T>` is a duplicate-free association list
  (`UnorderedMap`).  `find`, `insert` (which does nothing when the key is
  already present, as `std::unordered_map::insert` does) and `erase` follow the
  standard container; `assign` is a write through the iterator returned by
  `find` (`channelIter->second`).  The order of `entries` stands for the
  implementation-defined iteration order of the container.
* `std::list<Value>` is `List Value`; `pop_front` on an empty list is undefined
  behaviour in C++ and is `none` here, so `Enqueue` returns an `Option`.
* `IConsumer_ptr` is an element of an arbitrary type `Consumer` of live consumer
  objects; the call `consumer.second->Consume(id, value)` is recorded by
  appending a `Delivery` to the ghost field `delivered`.
* `std::size_t` is `Nat`: the only use of `maxChannelSize_` is the comparison
  `size() >= maxChannelSize_`, no arithmetic is done on it.
* `consumerMutex_` is held by `Subscribe`, `Unsubscribe` and by `Process` for a
  whole iteration of its `while (running_)` loop; `channelMutex_` is held by
  `Enqueue` and by each iteration of the `for` loop.  An execution is taken at
  the granularity of whole operations (`Op`): `Op.Pass` is one iteration of the
  `while` loop, `ProcessPass`, run without an `Enqueue` in the middle of it.
* `running_` is a `std::atomic<bool>` read and written with the default,
  sequentially consistent ordering.  For the shutdown, the thread `th_` is
  followed through `Process` in steps (`Threaded.advance`): reading the loop
  condition is one step, the loop body is the next, and calls of the public
  interface and the store `running_ = false` of the destructor (`stop`) can
  come between any two of them (`Action`, `exec`).
-/

namespace mqp

/-! ## `std::unordered_map` -/

/-- Finite map with unique keys, standing for `std::unordered_map`. -/
structure UnorderedMap (κ : Type) (β : Type) where
  entries : List (κ × β)
  nodup : (entries.map Prod.fst).Nodup

namespace UnorderedMap

variable {κ β : Type} [DecidableEq κ]

/-- Linear search for the value stored with key `k`. -/
def lookup : List (κ × β) → κ → Option β
  | [], _ => none
  | e :: es, k => if e.1 = k then some e.2 else lookup es k

/-- The empty container. -/
def empty : UnorderedMap κ β := ⟨[], List.nodup_nil⟩

/-- Result of `m.find(k)`: `none` stands for `m.end()`. -/
def find (m : UnorderedMap κ β) (k : κ) : Option β := lookup m.entries k

/-- Result of `m.insert(std::make_pair(k, b))`: the pair is added only when no
entry with key `k` exists; an existing entry is left as it is. -/
def insert (m : UnorderedMap κ β) (k : κ) (b : β) : UnorderedMap κ β :=
  if h : k ∈ m.entries.map Prod.fst then m
  else ⟨(k, b) :: m.entries, List.nodup_cons.mpr ⟨h, m.nodup⟩⟩

/-- Result of `m.erase(k)`. -/
def erase (m : UnorderedMap κ β) (k : κ) : UnorderedMap κ β :=
  ⟨m.entries.filter (fun e => decide (e.1 ≠ k)),
    List.Nodup.sublist (List.Sublist.map Prod.fst (List.filter_sublist m.entries)) m.nodup⟩

/-- Overwrite the mapped value of the entry with key `k`, if there is one: the
effect of mutating `it->second` for `it = m.find(k)`. -/
def assign (m : UnorderedMap κ β) (k : κ) (b : β) : UnorderedMap κ β :=
  ⟨m.entries.map (fun e => if e.1 = k then (e.1, b) else e), by
    have h : (m.entries.map (fun e => if e.1 = k then (e.1, b) else e)).map Prod.fst
        = m.entries.map Prod.fst := by
      rw [List.map_map]
      apply List.map_congr_left
      intro e _
      by_cases hk : e.1 = k <;> simp [hk]
    rw [h]
    exact m.nodup⟩

end UnorderedMap

/-! ## `std::list` -/

/-- Result of `q.pop_front()`; calling it on an empty list is undefined
behaviour, which is `none`. -/
def pop_front {Value : Type} : List Value → Option (List Value)
  | [] => none
  | _ :: q => some q

/-! ## The processor -/

/-- One call `consumer->Consume(id, value)`. -/
structure Delivery (Key Value Consumer : Type) where
  consumer : Consumer
  id : Key
  value : Value
  deriving DecidableEq

/-- Data members of `MultiQueueProcessor<Key, Value>` together with the ghost
log `delivered` of the `Consume` calls made so far, oldest first. -/
structure MultiQueueProcessor (Key Value Consumer : Type) where
  maxChannelSize_ : Nat
  consumers_ : UnorderedMap Key Consumer
  channels_ : UnorderedMap Key (List Value)
  running_ : Bool
  delivered : List (Delivery Key Value Consumer)

/-- Default value of the constructor argument `maxChannelSize`. -/
def defaultMaxChannelSize : Nat := 1000

section Operations

variable {Key Value Consumer : Type} [DecidableEq Key]

/-- Constructor: both maps empty, `running_` true. -/
def MultiQueueProcessor.new (maxChannelSize : Nat) : MultiQueueProcessor Key Value Consumer :=
  { maxChannelSize_ := maxChannelSize
    consumers_ := UnorderedMap.empty
    channels_ := UnorderedMap.empty
    running_ := true
    delivered := [] }

/-- Body of `Subscribe`: `consumers_.insert(std::make_pair(id, consumer))`. -/
def Subscribe (p : MultiQueueProcessor Key Value Consumer) (id : Key) (consumer : Consumer) :
    MultiQueueProcessor Key Value Consumer :=
  { p with consumers_ := p.consumers_.insert id consumer }

/-- Body of `Unsubscribe`: `consumers_.erase(id)`. -/
def Unsubscribe (p : MultiQueueProcessor Key Value Consumer) (id : Key) :
    MultiQueueProcessor Key Value Consumer :=
  { p with consumers_ := p.consumers_.erase id }

/-- Body of `Enqueue`.  `none` is the undefined behaviour of `pop_front` on an
empty list. -/
def Enqueue (p : MultiQueueProcessor Key Value Consumer) (id : Key) (value : Value) :
    Option (MultiQueueProcessor Key Value Consumer) :=
  match p.channels_.find id with
  | some q =>
    if q.length ≥ p.maxChannelSize_ then
      match pop_front q with
      | some q1 => some { p with channels_ := p.channels_.assign id (q1 ++ [value]) }
      | none => none
    else
      some { p with channels_ := p.channels_.assign id (q ++ [value]) }
  | none => some { p with channels_ := p.channels_.insert id [value] }

/-- The `for` loop of `Process` over the registry entries `es`, starting from the
channel store `ch`: the resulting channel store and the `Consume` calls made, in
order.  `front()` and `pop_front()` are only reached on a non-empty list. -/
def processEntries :
    List (Key × Consumer) → UnorderedMap Key (List Value) →
      UnorderedMap Key (List Value) × List (Delivery Key Value Consumer)
  | [], ch => (ch, [])
  | e :: es, ch =>
    match ch.find e.1 with
    | some (value :: q) =>
      let r := processEntries es (ch.assign e.1 q)
      (r.1, ⟨e.2, e.1, value⟩ :: r.2)
    | _ => processEntries es ch

/-- The `Consume` calls made by one dispatch pass from state `p`. -/
def passDeliveries (p : MultiQueueProcessor Key Value Consumer) :
    List (Delivery Key Value Consumer) :=
  (processEntries p.consumers_.entries p.channels_).2

/-- One iteration of the `while (running_)` loop of `Process`. -/
def ProcessPass (p : MultiQueueProcessor Key Value Consumer) :
    MultiQueueProcessor Key Value Consumer :=
  { p with
    channels_ := (processEntries p.consumers_.entries p.channels_).1
    delivered := p.delivered ++ passDeliveries p }

/-- The state after `n` consecutive dispatch passes. -/
def passes : Nat → MultiQueueProcessor Key Value Consumer → MultiQueueProcessor Key Value Consumer
  | 0, p => p
  | n + 1, p => passes n (ProcessPass p)

/-- An atomic step of an execution. -/
inductive Op (Key Value Consumer : Type) where
  | Subscribe (id : Key) (consumer : Consumer)
  | Unsubscribe (id : Key)
  | Enqueue (id : Key) (value : Value)
  | Pass
  deriving DecidableEq

/-- Effect of one step; `none` when the step has undefined behaviour. -/
def step (p : MultiQueueProcessor Key Value Consumer) :
    Op Key Value Consumer → Option (MultiQueueProcessor Key Value Consumer)
  | Op.Subscribe id consumer => some (Subscribe p id consumer)
  | Op.Unsubscribe id => some (Unsubscribe p id)
  | Op.Enqueue id value => Enqueue p id value
  | Op.Pass => some (ProcessPass p)

/-- Effect of a sequence of steps, first element first. -/
def run (p : MultiQueueProcessor Key Value Consumer) :
    List (Op Key Value Consumer) → Option (MultiQueueProcessor Key Value Consumer)
  | [] => some p
  | op :: ops =>
    match step p op with
    | some p1 => run p1 ops
    | none => none

/-- The channel of `id`, with a missing channel read as the empty list. -/
def channel (p : MultiQueueProcessor Key Value Consumer) (id : Key) : List Value :=
  (p.channels_.find id).getD []

/-- The `Consume` calls made so far with key `id`, oldest first. -/
def deliveredFor (p : MultiQueueProcessor Key Value Consumer) (id : Key) :
    List (Delivery Key Value Consumer) :=
  p.delivered.filter (fun d => decide (d.id = id))

/-- The values passed to `Enqueue` for key `id` in `ops`, in call order. -/
def enqueuedTo (id : Key) : List (Op Key Value Consumer) → List Value
  | [] => []
  | Op.Enqueue k v :: ops => if k = id then v :: enqueuedTo id ops else enqueuedTo id ops
  | _ :: ops => enqueuedTo id ops

/-- Whether the step is a `Subscribe` or `Unsubscribe` call for key `id`. -/
def changesRegistration (id : Key) : Op Key Value Consumer → Bool
  | Op.Subscribe k _ => decide (k = id)
  | Op.Unsubscribe k => decide (k = id)
  | _ => false

/-- Body of the destructor up to `th_.join()`: the store `running_ = false`. -/
def stop (p : MultiQueueProcessor Key Value Consumer) : MultiQueueProcessor Key Value Consumer :=
  { p with running_ := false }

/-- Where the thread `th_` stands in `Process`: about to evaluate the loop
condition `running_`, past a condition that held and about to run the loop
body, or returned from `Process`. -/
inductive Position where
  | condition
  | body
  | returned
  deriving DecidableEq

/-- The processor together with its thread `th_`.  `passesRun` is a ghost count
of the loop bodies `th_` has run. -/
structure Threaded (Key Value Consumer : Type) where
  processor : MultiQueueProcessor Key Value Consumer
  position : Position
  passesRun : Nat

/-- The constructor: a fresh processor whose thread is at the start of
`Process`. -/
def Threaded.new (maxChannelSize : Nat) : Threaded Key Value Consumer :=
  { processor := MultiQueueProcessor.new maxChannelSize
    position := Position.condition
    passesRun := 0 }

/-- One step of `th_` in `while (running_) { ... }`: the condition is read and
either the body is entered or `Process` returns; the body is one dispatch pass,
after which the condition is read again. -/
def Threaded.advance (t : Threaded Key Value Consumer) : Threaded Key Value Consumer :=
  match t.position with
  | Position.condition =>
    if t.processor.running_ then { t with position := Position.body }
    else { t with position := Position.returned }
  | Position.body =>
    { processor := ProcessPass t.processor
      position := Position.condition
      passesRun := t.passesRun + 1 }
  | Position.returned => t

/-- What can happen next to a processor with its thread: a call of the public
interface by a client thread, a step of `th_`, or the store `running_ = false`
of the destructor. -/
inductive Action (Key Value Consumer : Type) where
  | Subscribe (id : Key) (consumer : Consumer)
  | Unsubscribe (id : Key)
  | Enqueue (id : Key) (value : Value)
  | Advance
  | Stop
  deriving DecidableEq

/-- Effect of one action; `none` when it has undefined behaviour. -/
def act (t : Threaded Key Value Consumer) :
    Action Key Value Consumer → Option (Threaded Key Value Consumer)
  | Action.Subscribe id consumer => some { t with processor := Subscribe t.processor id consumer }
  | Action.Unsubscribe id => some { t with processor := Unsubscribe t.processor id }
  | Action.Enqueue id value =>
    match Enqueue t.processor id value with
    | some p1 => some { t with processor := p1 }
    | none => none
  | Action.Advance => some t.advance
  | Action.Stop => some { t with processor := stop t.processor }

/-- Effect of a sequence of actions, first element first. -/
def exec (t : Threaded Key Value Consumer) :
    List (Action Key Value Consumer) → Option (Threaded Key Value Consumer)
  | [] => some t
  | a :: as =>
    match act t a with
    | some t1 => exec t1 as
    | none => none

/-- The values of a list of `Consume` calls. -/
def deliveredValues (ds : List (Delivery Key Value Consumer)) : List Value :=
  ds.map Delivery.value

/-- The `Consume` call the `for` loop of `Process` makes at registry entry `e`
when the channel store is `ch` on arrival: none for a missing or empty
channel. -/
def entryDelivery (ch : UnorderedMap Key (List Value)) (e : Key × Consumer) :
    Option (Delivery Key Value Consumer) :=
  match ch.find e.1 with
  | some (value :: _) => some ⟨e.2, e.1, value⟩
  | _ => none

/-- A processor of capacity 2 whose thread has read `running_` as true and is
about to run a pass for key 7 (registered, channel [1]) at the moment the
destructor stores `running_ = false`. -/
def stoppedInFlight : Threaded Nat Nat Nat :=
  (exec (Threaded.new 2)
    [Action.Enqueue 7 1, Action.Subscribe 7 0, Action.Advance, Action.Stop]).getD
    (Threaded.new 2)

/-- A state reached from a fresh processor of capacity 2 by enqueuing 5 to key 8
and 1, 2, 3 to key 7, with no consumer registered: the channel of key 7 is
[2, 3]. -/
def backlogState : MultiQueueProcessor Nat Nat Nat :=
  (run (MultiQueueProcessor.new 2)
    [Op.Enqueue 8 5, Op.Enqueue 7 1, Op.Enqueue 7 2, Op.Enqueue 7 3]).getD
    (MultiQueueProcessor.new 2)

/-- A state reached from a fresh processor of capacity 2 in which keys 7 and 8
are registered with non-empty channels and key 9 is registered with no
channel. -/
def twoKeysState : MultiQueueProcessor Nat Nat Nat :=
  (run (MultiQueueProcessor.new 2)
    [Op.Enqueue 7 1, Op.Enqueue 7 2, Op.Enqueue 8 5, Op.Subscribe 7 0, Op.Subscribe 8 1,
      Op.Subscribe 9 2]).getD
    (MultiQueueProcessor.new 2)

/-- Every channel of the store `ch` holds at most `n` values. -/
def ChannelsWithin (n : Nat) (ch : UnorderedMap Key (List Value)) : Prop :=
  ∀ e ∈ ch.entries, e.2.length ≤ n

/-- The channel left by serving a registered key once: the head is removed from
a non-empty channel, an empty or missing channel stays as it is. -/
def servedChannel : Option (List Value) → Option (List Value)
  | some (_ :: q) => some q
  | o => o

/-- The `Consume` calls one pass makes for a key with registry entry `r` and
channel `o`. -/
def servedDeliveries (id : Key) : Option Consumer → Option (List Value) →
    List (Delivery Key Value Consumer)
  | some c, some (value :: _) => [⟨c, id, value⟩]
  | _, _ => []

end Operations

/-! ## Facts about `UnorderedMap` -/

namespace UnorderedMap

variable {κ β : Type} [DecidableEq κ]

omit [DecidableEq κ] in
theorem ext_entries {m1 m2 : UnorderedMap κ β} (h : m1.entries = m2.entries) : m1 = m2 := by
  cases m1; cases m2; cases h; rfl

theorem lookup_eq_none_iff (es : List (κ × β)) (k : κ) :
    lookup es k = none ↔ k ∉ es.map Prod.fst := by
  induction es with
  | nil => simp [lookup]
  | cons e es ih =>
    by_cases h : e.1 = k
    · simp [lookup, h]
    · have h1 : ¬ k = e.1 := fun hk => h hk.symm
      simp [lookup, h, h1, ih]

theorem mem_of_lookup (es : List (κ × β)) (k : κ) (b : β) (h : lookup es k = some b) :
    (k, b) ∈ es := by
  induction es with
  | nil => simp [lookup] at h
  | cons e es ih =>
    by_cases hk : e.1 = k
    · simp only [lookup, hk, if_true, Option.some.injEq] at h
      have : e = (k, b) := by
        cases e
        simp_all
      simp [this]
    · simp only [lookup, hk, if_false] at h
      exact List.mem_cons_of_mem _ (ih h)

theorem mem_of_find (m : UnorderedMap κ β) (k : κ) (b : β) (h : m.find k = some b) :
    (k, b) ∈ m.entries :=
  mem_of_lookup m.entries k b h

theorem find_eq_none_iff (m : UnorderedMap κ β) (k : κ) :
    m.find k = none ↔ k ∉ m.entries.map Prod.fst :=
  lookup_eq_none_iff m.entries k

theorem find_empty (k : κ) : (empty : UnorderedMap κ β).find k = none := rfl

theorem find_insert_of_none (m : UnorderedMap κ β) (k : κ) (b : β) (h : m.find k = none) :
    (m.insert k b).find k = some b := by
  have h1 := (find_eq_none_iff m k).mp h
  simp [insert, h1, find, lookup]

theorem find_insert_of_some (m : UnorderedMap κ β) (k : κ) (b b0 : β) (h : m.find k = some b0) :
    (m.insert k b).find k = some b0 := by
  have h1 : k ∈ m.entries.map Prod.fst := by
    by_contra hc
    rw [(find_eq_none_iff m k).mpr hc] at h
    cases h
  simp only [insert, h1, dite_true]
  exact h

theorem insert_of_some (m : UnorderedMap κ β) (k : κ) (b b0 : β) (h : m.find k = some b0) :
    m.insert k b = m := by
  have h1 : k ∈ m.entries.map Prod.fst := by
    by_contra hc
    rw [(find_eq_none_iff m k).mpr hc] at h
    cases h
  simp only [insert, h1, dite_true]

theorem find_insert_ne (m : UnorderedMap κ β) (k k1 : κ) (b : β) (h : k ≠ k1) :
    (m.insert k b).find k1 = m.find k1 := by
  by_cases h1 : k ∈ m.entries.map Prod.fst
  · simp only [insert, h1, dite_true]
  · simp [insert, h1, find, lookup, h]

theorem lookup_filter_self (es : List (κ × β)) (k : κ) :
    lookup (es.filter (fun e => decide (e.1 ≠ k))) k = none := by
  rw [lookup_eq_none_iff]
  simp [List.mem_filter]

theorem lookup_filter_ne (es : List (κ × β)) (k k1 : κ) (h : k ≠ k1) :
    lookup (es.filter (fun e => decide (e.1 ≠ k))) k1 = lookup es k1 := by
  induction es with
  | nil => rfl
  | cons e es ih =>
    by_cases hk : e.1 = k
    · have hk1 : ¬ e.1 = k1 := fun hc => h (hk.symm.trans hc)
      have hd : decide (e.1 ≠ k) = false := by simp [hk]
      rw [List.filter_cons, hd]
      simp only [Bool.false_eq_true, if_false, ih, lookup, hk1]
    · have hd : decide (e.1 ≠ k) = true := by simp [hk]
      rw [List.filter_cons, hd]
      simp only [if_true]
      by_cases hk1 : e.1 = k1
      · simp only [lookup, hk1, if_true]
      · simp only [lookup, hk1, if_false, ih]

theorem find_erase_self (m : UnorderedMap κ β) (k : κ) : (m.erase k).find k = none :=
  lookup_filter_self m.entries k

theorem find_erase_ne (m : UnorderedMap κ β) (k k1 : κ) (h : k ≠ k1) :
    (m.erase k).find k1 = m.find k1 :=
  lookup_filter_ne m.entries k k1 h

theorem erase_of_none (m : UnorderedMap κ β) (k : κ) (h : m.find k = none) :
    m.erase k = m := by
  apply ext_entries
  have h1 := (find_eq_none_iff m k).mp h
  simp only [erase]
  rw [List.filter_eq_self]
  intro e he
  have : e.1 ≠ k := by
    intro hc
    exact h1 (hc ▸ List.mem_map_of_mem Prod.fst he)
  simp [this]

theorem lookup_assign_self (es : List (κ × β)) (k : κ) (b : β) :
    lookup (es.map (fun e => if e.1 = k then (e.1, b) else e)) k
      = (lookup es k).map (fun _ => b) := by
  induction es with
  | nil => rfl
  | cons e es ih =>
    by_cases hk : e.1 = k
    · simp [lookup, hk]
    · simp [lookup, hk, ih]

theorem lookup_assign_ne (es : List (κ × β)) (k k1 : κ) (b : β) (h : k ≠ k1) :
    lookup (es.map (fun e => if e.1 = k then (e.1, b) else e)) k1 = lookup es k1 := by
  induction es with
  | nil => rfl
  | cons e es ih =>
    rw [List.map_cons]
    by_cases hk : e.1 = k
    · have hk1 : ¬ e.1 = k1 := fun hc => h (hk.symm.trans hc)
      simp only [lookup, hk, if_true, h, if_false, ih]
    · simp only [hk, if_false]
      by_cases hk1 : e.1 = k1
      · simp only [lookup, hk1, if_true]
      · simp only [lookup, hk1, if_false, ih]

theorem find_assign_self (m : UnorderedMap κ β) (k : κ) (b : β) :
    (m.assign k b).find k = (m.find k).map (fun _ => b) :=
  lookup_assign_self m.entries k b

theorem find_assign_of_some (m : UnorderedMap κ β) (k : κ) (b b0 : β) (h : m.find k = some b0) :
    (m.assign k b).find k = some b := by
  rw [find_assign_self, h]
  rfl

theorem find_assign_ne (m : UnorderedMap κ β) (k k1 : κ) (b : β) (h : k ≠ k1) :
    (m.assign k b).find k1 = m.find k1 :=
  lookup_assign_ne m.entries k k1 b h

end UnorderedMap

/-! ## Facts about `Enqueue` -/

section EnqueueFacts

variable {Key Value Consumer : Type} [DecidableEq Key]

theorem Enqueue_of_none (p : MultiQueueProcessor Key Value Consumer) (id : Key) (value : Value)
    (h : p.channels_.find id = none) :
    Enqueue p id value = some { p with channels_ := p.channels_.insert id [value] } := by
  simp only [Enqueue, h]

theorem Enqueue_of_lt (p : MultiQueueProcessor Key Value Consumer) (id : Key) (value : Value)
    (q : List Value) (h : p.channels_.find id = some q) (hlt : q.length < p.maxChannelSize_) :
    Enqueue p id value = some { p with channels_ := p.channels_.assign id (q ++ [value]) } := by
  have hn : ¬ q.length ≥ p.maxChannelSize_ := Nat.not_le.mpr hlt
  simp only [Enqueue, h, hn, if_false]

theorem Enqueue_of_full (p : MultiQueueProcessor Key Value Consumer) (id : Key) (value x : Value)
    (q : List Value) (h : p.channels_.find id = some (x :: q))
    (hge : p.maxChannelSize_ ≤ (x :: q).length) :
    Enqueue p id value = some { p with channels_ := p.channels_.assign id (q ++ [value]) } := by
  have hn : (x :: q).length ≥ p.maxChannelSize_ := hge
  simp only [Enqueue, h, hn, if_true, pop_front]

theorem Enqueue_of_empty_zero (p : MultiQueueProcessor Key Value Consumer) (id : Key)
    (value : Value) (h : p.channels_.find id = some []) (h0 : p.maxChannelSize_ = 0) :
    Enqueue p id value = none := by
  simp [Enqueue, h, h0, pop_front]

/-- The only input on which `Enqueue` reaches `pop_front` on an empty list. -/
theorem Enqueue_eq_none_iff (p : MultiQueueProcessor Key Value Consumer) (id : Key)
    (value : Value) :
    Enqueue p id value = none ↔ p.maxChannelSize_ = 0 ∧ p.channels_.find id = some [] := by
  constructor
  · intro hn
    cases h : p.channels_.find id with
    | none => rw [Enqueue_of_none p id value h] at hn; cases hn
    | some q =>
      cases q with
      | nil =>
        by_cases h0 : p.maxChannelSize_ = 0
        · exact ⟨h0, rfl⟩
        · have hlt : ([] : List Value).length < p.maxChannelSize_ := Nat.pos_of_ne_zero h0
          rw [Enqueue_of_lt p id value [] h hlt] at hn
          cases hn
      | cons x q =>
        by_cases hge : p.maxChannelSize_ ≤ (x :: q).length
        · rw [Enqueue_of_full p id value x q h hge] at hn; cases hn
        · rw [Enqueue_of_lt p id value (x :: q) h (Nat.not_le.mp hge)] at hn; cases hn
  · rintro ⟨h0, h⟩
    exact Enqueue_of_empty_zero p id value h h0

/-- The state after a defined `Enqueue`, by cases on the channel before. -/
theorem Enqueue_cases (p p1 : MultiQueueProcessor Key Value Consumer) (id : Key) (value : Value)
    (h : Enqueue p id value = some p1) :
    (p.channels_.find id = none ∧
        p1 = { p with channels_ := p.channels_.insert id [value] }) ∨
    (∃ q, p.channels_.find id = some q ∧ q.length < p.maxChannelSize_ ∧
        p1 = { p with channels_ := p.channels_.assign id (q ++ [value]) }) ∨
    (∃ x q, p.channels_.find id = some (x :: q) ∧ p.maxChannelSize_ ≤ (x :: q).length ∧
        p1 = { p with channels_ := p.channels_.assign id (q ++ [value]) }) := by
  cases hf : p.channels_.find id with
  | none =>
    rw [Enqueue_of_none p id value hf] at h
    exact Or.inl ⟨rfl, (Option.some.inj h).symm⟩
  | some q =>
    by_cases hlt : q.length < p.maxChannelSize_
    · rw [Enqueue_of_lt p id value q hf hlt] at h
      exact Or.inr (Or.inl ⟨q, rfl, hlt, (Option.some.inj h).symm⟩)
    · cases q with
      | nil =>
        have h0 : p.maxChannelSize_ = 0 := by
          simp only [List.length_nil, Nat.not_lt, Nat.le_zero] at hlt
          exact hlt
        rw [Enqueue_of_empty_zero p id value hf h0] at h
        cases h
      | cons x q =>
        have hge := Nat.not_lt.mp hlt
        rw [Enqueue_of_full p id value x q hf hge] at h
        exact Or.inr (Or.inr ⟨x, q, rfl, hge, (Option.some.inj h).symm⟩)

theorem Enqueue_defined (p : MultiQueueProcessor Key Value Consumer) (id : Key) (value : Value)
    (h : 1 ≤ p.maxChannelSize_ ∨ p.channels_.find id ≠ some []) :
    ∃ p1, Enqueue p id value = some p1 := by
  cases hE : Enqueue p id value with
  | some p1 => exact ⟨p1, rfl⟩
  | none =>
    obtain ⟨h0, hf⟩ := (Enqueue_eq_none_iff p id value).mp hE
    rcases h with h | h
    · omega
    · exact absurd hf h

theorem Enqueue_frame (p p1 : MultiQueueProcessor Key Value Consumer) (id : Key) (value : Value)
    (h : Enqueue p id value = some p1) :
    p1.maxChannelSize_ = p.maxChannelSize_ ∧ p1.consumers_ = p.consumers_ ∧
      p1.running_ = p.running_ ∧ p1.delivered = p.delivered := by
  rcases Enqueue_cases p p1 id value h with ⟨_, rfl⟩ | ⟨_, _, _, rfl⟩ | ⟨_, _, _, _, rfl⟩ <;>
    exact ⟨rfl, rfl, rfl, rfl⟩

/-- The channel of `id` after a defined `Enqueue(id, value)`: `[value]` for a
missing channel, `q ++ [value]` below capacity, `q` without its head followed by
`value` at capacity. -/
theorem Enqueue_find_self (p p1 : MultiQueueProcessor Key Value Consumer) (id : Key)
    (value : Value) (h : Enqueue p id value = some p1) :
    (p.channels_.find id = none ∧ p1.channels_.find id = some [value]) ∨
    (∃ q, p.channels_.find id = some q ∧ q.length < p.maxChannelSize_ ∧
        p1.channels_.find id = some (q ++ [value])) ∨
    (∃ x q, p.channels_.find id = some (x :: q) ∧ p.maxChannelSize_ ≤ (x :: q).length ∧
        p1.channels_.find id = some (q ++ [value])) := by
  rcases Enqueue_cases p p1 id value h with ⟨hf, rfl⟩ | ⟨q, hf, hlt, rfl⟩ | ⟨x, q, hf, hge, rfl⟩
  · exact Or.inl ⟨hf, UnorderedMap.find_insert_of_none _ _ _ hf⟩
  · exact Or.inr (Or.inl ⟨q, hf, hlt, UnorderedMap.find_assign_of_some _ _ _ _ hf⟩)
  · exact Or.inr (Or.inr ⟨x, q, hf, hge, UnorderedMap.find_assign_of_some _ _ _ _ hf⟩)

theorem Enqueue_find_ne (p p1 : MultiQueueProcessor Key Value Consumer) (id k : Key)
    (value : Value) (hne : id ≠ k) (h : Enqueue p id value = some p1) :
    p1.channels_.find k = p.channels_.find k := by
  rcases Enqueue_cases p p1 id value h with ⟨_, rfl⟩ | ⟨_, _, _, rfl⟩ | ⟨_, _, _, _, rfl⟩
  · exact UnorderedMap.find_insert_ne _ _ _ _ hne
  · exact UnorderedMap.find_assign_ne _ _ _ _ hne
  · exact UnorderedMap.find_assign_ne _ _ _ _ hne

end EnqueueFacts

/-! ## Facts about the dispatch pass -/

section PassFacts

variable {Key Value Consumer : Type} [DecidableEq Key]

theorem processEntries_cons_some (e : Key × Consumer) (es : List (Key × Consumer))
    (ch : UnorderedMap Key (List Value)) (value : Value) (q : List Value)
    (h : ch.find e.1 = some (value :: q)) :
    processEntries (e :: es) ch
      = ((processEntries es (ch.assign e.1 q)).1,
          ⟨e.2, e.1, value⟩ :: (processEntries es (ch.assign e.1 q)).2) := by
  simp only [processEntries, h]

theorem processEntries_cons_nil (e : Key × Consumer) (es : List (Key × Consumer))
    (ch : UnorderedMap Key (List Value)) (h : ch.find e.1 = some []) :
    processEntries (e :: es) ch = processEntries es ch := by
  simp only [processEntries, h]

theorem processEntries_cons_none (e : Key × Consumer) (es : List (Key × Consumer))
    (ch : UnorderedMap Key (List Value)) (h : ch.find e.1 = none) :
    processEntries (e :: es) ch = processEntries es ch := by
  simp only [processEntries, h]

theorem processEntries_find (es : List (Key × Consumer)) (hnd : (es.map Prod.fst).Nodup)
    (ch : UnorderedMap Key (List Value)) (k : Key) :
    (processEntries es ch).1.find k
      = if k ∈ es.map Prod.fst then servedChannel (ch.find k) else ch.find k := by
  induction es generalizing ch with
  | nil => simp [processEntries]
  | cons e es ih =>
    rw [List.map_cons, List.nodup_cons] at hnd
    obtain ⟨hnot, hnd1⟩ := hnd
    by_cases hk : k = e.1
    · subst hk
      have hmem : e.1 ∈ (e :: es).map Prod.fst := by simp
      rw [if_pos hmem]
      cases hf : ch.find e.1 with
      | none =>
        rw [processEntries_cons_none e es ch hf, ih hnd1, if_neg hnot, hf]
        rfl
      | some q =>
        cases q with
        | nil =>
          rw [processEntries_cons_nil e es ch hf, ih hnd1, if_neg hnot, hf]
          rfl
        | cons value q =>
          rw [processEntries_cons_some e es ch value q hf]
          simp only
          rw [ih hnd1, if_neg hnot, UnorderedMap.find_assign_of_some ch e.1 q _ hf]
          rfl
    · have hiff : k ∈ (e :: es).map Prod.fst ↔ k ∈ es.map Prod.fst := by
        simp [hk]
      rw [if_congr hiff rfl rfl]
      cases hf : ch.find e.1 with
      | none => rw [processEntries_cons_none e es ch hf, ih hnd1]
      | some q =>
        cases q with
        | nil => rw [processEntries_cons_nil e es ch hf, ih hnd1]
        | cons value q =>
          rw [processEntries_cons_some e es ch value q hf]
          simp only
          rw [ih hnd1, UnorderedMap.find_assign_ne ch e.1 k q (fun hc => hk hc.symm)]

theorem processEntries_deliveries (es : List (Key × Consumer))
    (hnd : (es.map Prod.fst).Nodup) (ch : UnorderedMap Key (List Value)) (k : Key) :
    (processEntries es ch).2.filter (fun d => decide (d.id = k))
      = servedDeliveries k (UnorderedMap.lookup es k) (ch.find k) := by
  induction es generalizing ch with
  | nil => simp [processEntries, UnorderedMap.lookup, servedDeliveries]
  | cons e es ih =>
    rw [List.map_cons, List.nodup_cons] at hnd
    obtain ⟨hnot, hnd1⟩ := hnd
    by_cases hk : e.1 = k
    · subst hk
      have hl : UnorderedMap.lookup es e.1 = none :=
        (UnorderedMap.lookup_eq_none_iff es e.1).mpr hnot
      cases hf : ch.find e.1 with
      | none =>
        rw [processEntries_cons_none e es ch hf, ih hnd1, hl, hf]
        simp [servedDeliveries]
      | some q =>
        cases q with
        | nil =>
          rw [processEntries_cons_nil e es ch hf, ih hnd1, hl, hf]
          simp [servedDeliveries]
        | cons value q =>
          rw [processEntries_cons_some e es ch value q hf]
          simp only
          rw [List.filter_cons]
          simp only [decide_True, if_true]
          rw [ih hnd1, hl]
          simp [servedDeliveries, UnorderedMap.lookup]
    · have hl : UnorderedMap.lookup (e :: es) k = UnorderedMap.lookup es k := by
        simp only [UnorderedMap.lookup, hk, if_false]
      rw [hl]
      cases hf : ch.find e.1 with
      | none => rw [processEntries_cons_none e es ch hf, ih hnd1]
      | some q =>
        cases q with
        | nil => rw [processEntries_cons_nil e es ch hf, ih hnd1]
        | cons value q =>
          rw [processEntries_cons_some e es ch value q hf]
          simp only
          rw [List.filter_cons]
          simp only [hk, decide_False, Bool.false_eq_true, if_false]
          rw [ih hnd1, UnorderedMap.find_assign_ne ch e.1 k q hk]

theorem ChannelsWithin_assign (n : Nat) (ch : UnorderedMap Key (List Value)) (k : Key)
    (q : List Value) (h : ChannelsWithin n ch) (hq : q.length ≤ n) :
    ChannelsWithin n (ch.assign k q) := by
  intro e he
  simp only [UnorderedMap.assign, List.mem_map] at he
  obtain ⟨e0, he0, rfl⟩ := he
  by_cases hk : e0.1 = k
  · simp only [hk, if_true]
    exact hq
  · simp only [hk, if_false]
    exact h e0 he0

theorem ChannelsWithin_insert (n : Nat) (ch : UnorderedMap Key (List Value)) (k : Key)
    (q : List Value) (h : ChannelsWithin n ch) (hq : q.length ≤ n) :
    ChannelsWithin n (ch.insert k q) := by
  intro e he
  by_cases hm : k ∈ ch.entries.map Prod.fst
  · simp only [UnorderedMap.insert, hm, dite_true] at he
    exact h e he
  · simp only [UnorderedMap.insert, hm, dite_false, List.mem_cons] at he
    rcases he with rfl | he
    · exact hq
    · exact h e he

theorem ChannelsWithin_find (n : Nat) (ch : UnorderedMap Key (List Value)) (k : Key)
    (q : List Value) (h : ChannelsWithin n ch) (hf : ch.find k = some q) : q.length ≤ n :=
  h (k, q) (UnorderedMap.mem_of_find ch k q hf)

theorem ChannelsWithin_processEntries (n : Nat) (es : List (Key × Consumer))
    (ch : UnorderedMap Key (List Value)) (h : ChannelsWithin n ch) :
    ChannelsWithin n (processEntries es ch).1 := by
  induction es generalizing ch with
  | nil => exact h
  | cons e es ih =>
    cases hf : ch.find e.1 with
    | none => rw [processEntries_cons_none e es ch hf]; exact ih ch h
    | some q =>
      cases q with
      | nil => rw [processEntries_cons_nil e es ch hf]; exact ih ch h
      | cons value q =>
        rw [processEntries_cons_some e es ch value q hf]
        apply ih
        apply ChannelsWithin_assign n ch e.1 q h
        have := ChannelsWithin_find n ch e.1 (value :: q) h hf
        simp only [List.length_cons] at this
        omega

theorem ProcessPass_find (p : MultiQueueProcessor Key Value Consumer) (k : Key) :
    (ProcessPass p).channels_.find k
      = if (p.consumers_.find k).isSome then servedChannel (p.channels_.find k)
        else p.channels_.find k := by
  show (processEntries p.consumers_.entries p.channels_).1.find k = _
  rw [processEntries_find p.consumers_.entries p.consumers_.nodup]
  cases h : p.consumers_.find k with
  | none =>
    rw [if_neg ((UnorderedMap.find_eq_none_iff _ _).mp h)]
    rfl
  | some c =>
    have hm : k ∈ p.consumers_.entries.map Prod.fst := by
      by_contra hc
      rw [(UnorderedMap.find_eq_none_iff _ _).mpr hc] at h
      cases h
    rw [if_pos hm]
    rfl

theorem passDeliveries_filter (p : MultiQueueProcessor Key Value Consumer) (k : Key) :
    (passDeliveries p).filter (fun d => decide (d.id = k))
      = servedDeliveries k (p.consumers_.find k) (p.channels_.find k) :=
  processEntries_deliveries p.consumers_.entries p.consumers_.nodup p.channels_ k

theorem deliveredFor_ProcessPass (p : MultiQueueProcessor Key Value Consumer) (k : Key) :
    deliveredFor (ProcessPass p) k
      = deliveredFor p k ++ servedDeliveries k (p.consumers_.find k) (p.channels_.find k) := by
  show (p.delivered ++ passDeliveries p).filter _ = _
  rw [List.filter_append, passDeliveries_filter]
  rfl

theorem passes_consumers (n : Nat) (p : MultiQueueProcessor Key Value Consumer) :
    (passes n p).consumers_ = p.consumers_ := by
  induction n generalizing p with
  | zero => rfl
  | succ n ih => exact ih (ProcessPass p)

/-- Consecutive passes serve a registered key one value at a time, oldest
first. -/
theorem passes_drain (n : Nat) (p : MultiQueueProcessor Key Value Consumer) (K : Key)
    (C : Consumer) (q : List Value) (hreg : p.consumers_.find K = some C)
    (hq : p.channels_.find K = some q) :
    (passes n p).channels_.find K = some (q.drop n) ∧
      deliveredFor (passes n p) K = deliveredFor p K ++ (q.take n).map (Delivery.mk C K) := by
  induction n generalizing p q with
  | zero => exact ⟨by simpa [passes] using hq, by simp [passes]⟩
  | succ n ih =>
    have hfind : (ProcessPass p).channels_.find K = servedChannel (some q) := by
      rw [ProcessPass_find, hreg, hq]
      rfl
    have hdel := deliveredFor_ProcessPass p K
    rw [hreg, hq] at hdel
    cases q with
    | nil =>
      obtain ⟨h1, h2⟩ := ih (ProcessPass p) [] hreg hfind
      refine ⟨by simpa [passes] using h1, ?_⟩
      show deliveredFor (passes n (ProcessPass p)) K = _
      rw [h2, hdel]
      simp [servedDeliveries]
    | cons x q =>
      obtain ⟨h1, h2⟩ := ih (ProcessPass p) q hreg hfind
      refine ⟨by simpa [passes] using h1, ?_⟩
      show deliveredFor (passes n (ProcessPass p)) K = _
      rw [h2, hdel]
      simp [servedDeliveries]

/-- Passes neither serve nor touch the channel of a key that is not registered. -/
theorem passes_unregistered (n : Nat) (p : MultiQueueProcessor Key Value Consumer) (K : Key)
    (h : p.consumers_.find K = none) :
    (passes n p).channels_.find K = p.channels_.find K ∧
      deliveredFor (passes n p) K = deliveredFor p K := by
  induction n generalizing p with
  | zero => exact ⟨rfl, rfl⟩
  | succ n ih =>
    obtain ⟨h1, h2⟩ := ih (ProcessPass p) h
    have hfind : (ProcessPass p).channels_.find K = p.channels_.find K := by
      rw [ProcessPass_find, h]
      rfl
    have hdel := deliveredFor_ProcessPass p K
    rw [h] at hdel
    refine ⟨h1.trans hfind, ?_⟩
    show deliveredFor (passes n (ProcessPass p)) K = _
    rw [h2, hdel]
    simp [servedDeliveries]

end PassFacts

/-! ## Facts about executions -/

section RunFacts

variable {Key Value Consumer : Type} [DecidableEq Key]

theorem step_defined (p : MultiQueueProcessor Key Value Consumer) (op : Op Key Value Consumer)
    (h : 1 ≤ p.maxChannelSize_) : ∃ p1, step p op = some p1 := by
  cases op with
  | Subscribe id consumer => exact ⟨_, rfl⟩
  | Unsubscribe id => exact ⟨_, rfl⟩
  | Enqueue id value => exact Enqueue_defined p id value (Or.inl h)
  | Pass => exact ⟨_, rfl⟩

theorem step_maxChannelSize (p p1 : MultiQueueProcessor Key Value Consumer)
    (op : Op Key Value Consumer) (h : step p op = some p1) :
    p1.maxChannelSize_ = p.maxChannelSize_ := by
  cases op with
  | Subscribe id consumer => cases h; rfl
  | Unsubscribe id => cases h; rfl
  | Enqueue id value => exact (Enqueue_frame p p1 id value h).1
  | Pass => cases h; rfl

theorem Enqueue_within (p p1 : MultiQueueProcessor Key Value Consumer) (id : Key)
    (value : Value) (hcap : 1 ≤ p.maxChannelSize_)
    (hw : ChannelsWithin p.maxChannelSize_ p.channels_) (h : Enqueue p id value = some p1) :
    ChannelsWithin p.maxChannelSize_ p1.channels_ := by
  rcases Enqueue_cases p p1 id value h with ⟨_, rfl⟩ | ⟨q, hf, hlt, rfl⟩ | ⟨x, q, hf, _, rfl⟩
  · exact ChannelsWithin_insert _ _ _ _ hw hcap
  · apply ChannelsWithin_assign _ _ _ _ hw
    simp only [List.length_append, List.length_singleton]
    omega
  · apply ChannelsWithin_assign _ _ _ _ hw
    have := ChannelsWithin_find _ _ _ _ hw hf
    simp only [List.length_cons] at this
    simp only [List.length_append, List.length_singleton]
    omega

theorem step_within (p p1 : MultiQueueProcessor Key Value Consumer)
    (op : Op Key Value Consumer) (hcap : 1 ≤ p.maxChannelSize_)
    (hw : ChannelsWithin p.maxChannelSize_ p.channels_) (h : step p op = some p1) :
    ChannelsWithin p.maxChannelSize_ p1.channels_ := by
  cases op with
  | Subscribe id consumer => cases h; exact hw
  | Unsubscribe id => cases h; exact hw
  | Enqueue id value => exact Enqueue_within p p1 id value hcap hw h
  | Pass =>
    cases h
    exact ChannelsWithin_processEntries _ _ _ hw

theorem run_within (ops : List (Op Key Value Consumer))
    (p : MultiQueueProcessor Key Value Consumer) (hcap : 1 ≤ p.maxChannelSize_)
    (hw : ChannelsWithin p.maxChannelSize_ p.channels_) :
    ∃ p1, run p ops = some p1 ∧ p1.maxChannelSize_ = p.maxChannelSize_ ∧
      ChannelsWithin p.maxChannelSize_ p1.channels_ := by
  induction ops generalizing p with
  | nil => exact ⟨p, rfl, rfl, hw⟩
  | cons op ops ih =>
    obtain ⟨p0, hs⟩ := step_defined p op hcap
    have hm := step_maxChannelSize p p0 op hs
    have hw0 := step_within p p0 op hcap hw hs
    rw [← hm] at hw0 hcap
    obtain ⟨p1, hr, hm1, hw1⟩ := ih p0 hcap hw0
    refine ⟨p1, ?_, hm1.trans hm, ?_⟩
    · simp only [run, hs]
      exact hr
    · rw [← hm]
      exact hw1

theorem run_append (ops1 ops2 : List (Op Key Value Consumer))
    (p p1 : MultiQueueProcessor Key Value Consumer) (h : run p ops1 = some p1) :
    run p (ops1 ++ ops2) = run p1 ops2 := by
  induction ops1 generalizing p with
  | nil =>
    cases h
    rfl
  | cons op ops1 ih =>
    cases hs : step p op with
    | none => simp only [run, hs] at h; cases h
    | some p0 =>
      simp only [run, hs] at h
      simp only [List.cons_append, run, hs]
      exact ih p0 h

theorem run_defined (ops : List (Op Key Value Consumer))
    (p : MultiQueueProcessor Key Value Consumer) (hcap : 1 ≤ p.maxChannelSize_) :
    ∃ p1, run p ops = some p1 := by
  induction ops generalizing p with
  | nil => exact ⟨p, rfl⟩
  | cons op ops ih =>
    obtain ⟨p0, hs⟩ := step_defined p op hcap
    have hm := step_maxChannelSize p p0 op hs
    rw [← hm] at hcap
    obtain ⟨p1, hr⟩ := ih p0 hcap
    exact ⟨p1, by simp only [run, hs]; exact hr⟩

/-- Enqueuing `vs` to a channel `q` that has room for all of them appends them. -/
theorem run_enqueue_fill (vs : List Value) (p : MultiQueueProcessor Key Value Consumer)
    (K : Key) (q : List Value) (hf : p.channels_.find K = some q)
    (hroom : q.length + vs.length ≤ p.maxChannelSize_) :
    ∃ p1, run p (vs.map (Op.Enqueue K)) = some p1 ∧ p1.channels_.find K = some (q ++ vs) ∧
      p1.maxChannelSize_ = p.maxChannelSize_ := by
  induction vs generalizing p q with
  | nil => exact ⟨p, rfl, by simpa using hf, rfl⟩
  | cons v vs ih =>
    simp only [List.length_cons] at hroom
    have hlt : q.length < p.maxChannelSize_ := by omega
    have hE := Enqueue_of_lt p K v q hf hlt
    have hf0 : (p.channels_.assign K (q ++ [v])).find K = some (q ++ [v]) :=
      UnorderedMap.find_assign_of_some _ _ _ _ hf
    obtain ⟨p1, hr, hf1, hm1⟩ :=
      ih { p with channels_ := p.channels_.assign K (q ++ [v]) } (q ++ [v]) hf0
        (by simp only [List.length_append, List.length_singleton]; omega)
    refine ⟨p1, ?_, ?_, hm1⟩
    · simp only [List.map_cons, run, step, hE]
      exact hr
    · rw [hf1, List.append_assoc]
      rfl

theorem enqueuedTo_cons (K : Key) (op : Op Key Value Consumer)
    (ops : List (Op Key Value Consumer)) :
    enqueuedTo K (op :: ops) = enqueuedTo K [op] ++ enqueuedTo K ops := by
  cases op with
  | Subscribe id consumer => rfl
  | Unsubscribe id => rfl
  | Enqueue id value =>
    by_cases h : id = K
    · simp [enqueuedTo, h]
    · simp [enqueuedTo, h]
  | Pass => rfl

/-- One step of an execution, seen from a key `K` registered to `c` whose
registration the step does not touch and whose channel has room for what the
step enqueues: what is delivered for `K` followed by what remains queued grows
exactly by what was enqueued. -/
theorem step_conserves (p p1 : MultiQueueProcessor Key Value Consumer) (K : Key) (c : Consumer)
    (op : Op Key Value Consumer) (hreg : p.consumers_.find K = some c)
    (hop : changesRegistration K op = false) (hs : step p op = some p1)
    (hroom : (channel p K).length + (enqueuedTo K [op]).length ≤ p.maxChannelSize_) :
    p1.consumers_.find K = some c ∧ p1.maxChannelSize_ = p.maxChannelSize_ ∧
      ∃ ds, deliveredFor p1 K = deliveredFor p K ++ ds ∧
        ds ++ (channel p1 K).map (Delivery.mk c K)
          = (channel p K).map (Delivery.mk c K) ++ (enqueuedTo K [op]).map (Delivery.mk c K) := by
  cases op with
  | Subscribe id consumer =>
    cases hs
    have hne : id ≠ K := by simpa [changesRegistration] using hop
    refine ⟨?_, rfl, [], ?_, ?_⟩
    · show (p.consumers_.insert id consumer).find K = some c
      rw [UnorderedMap.find_insert_ne _ _ _ _ hne]
      exact hreg
    · simp [deliveredFor, Subscribe]
    · simp [channel, Subscribe, enqueuedTo]
  | Unsubscribe id =>
    cases hs
    have hne : id ≠ K := by simpa [changesRegistration] using hop
    refine ⟨?_, rfl, [], ?_, ?_⟩
    · show (p.consumers_.erase id).find K = some c
      rw [UnorderedMap.find_erase_ne _ _ _ hne]
      exact hreg
    · simp [deliveredFor, Unsubscribe]
    · simp [channel, Unsubscribe, enqueuedTo]
  | Enqueue id value =>
    have hE : Enqueue p id value = some p1 := hs
    obtain ⟨hm, hc, _, hd⟩ := Enqueue_frame p p1 id value hE
    refine ⟨by rw [hc]; exact hreg, hm, [], by simp [deliveredFor, hd], ?_⟩
    by_cases hk : id = K
    · subst hk
      have he : enqueuedTo id [(Op.Enqueue id value : Op Key Value Consumer)] = [value] := by
        simp [enqueuedTo]
      rw [he] at hroom ⊢
      simp only [List.length_singleton] at hroom
      rcases Enqueue_find_self p p1 id value hE with
        ⟨hf, hf1⟩ | ⟨q, hf, _, hf1⟩ | ⟨x, q, hf, hge, _⟩
      · simp [channel, hf, hf1]
      · simp [channel, hf, hf1]
      · simp only [channel, hf, Option.getD_some] at hroom
        omega
    · have he : enqueuedTo K [(Op.Enqueue id value : Op Key Value Consumer)] = [] := by
        simp [enqueuedTo, hk]
      rw [he]
      simp [channel, Enqueue_find_ne p p1 id K value hk hE]
  | Pass =>
    cases hs
    refine ⟨hreg, rfl, servedDeliveries K (p.consumers_.find K) (p.channels_.find K),
      deliveredFor_ProcessPass p K, ?_⟩
    have hch : channel (ProcessPass p) K = (servedChannel (p.channels_.find K)).getD [] := by
      simp only [channel, ProcessPass_find, hreg, Option.isSome_some, if_true]
    rw [hch, hreg]
    cases hf : p.channels_.find K with
    | none => simp [servedDeliveries, servedChannel, channel, hf, enqueuedTo]
    | some q =>
      cases q with
      | nil => simp [servedDeliveries, servedChannel, channel, hf, enqueuedTo]
      | cons x q => simp [servedDeliveries, servedChannel, channel, hf, enqueuedTo]

theorem run_conserves (ops : List (Op Key Value Consumer))
    (p p1 : MultiQueueProcessor Key Value Consumer) (K : Key) (c : Consumer)
    (hreg : p.consumers_.find K = some c)
    (hops : ∀ op ∈ ops, changesRegistration K op = false) (hr : run p ops = some p1)
    (hroom : (channel p K).length + (enqueuedTo K ops).length ≤ p.maxChannelSize_) :
    ∃ ds, deliveredFor p1 K = deliveredFor p K ++ ds ∧
      ds ++ (channel p1 K).map (Delivery.mk c K)
        = (channel p K).map (Delivery.mk c K) ++ (enqueuedTo K ops).map (Delivery.mk c K) := by
  induction ops generalizing p with
  | nil =>
    cases hr
    exact ⟨[], by simp, by simp [enqueuedTo]⟩
  | cons op ops ih =>
    cases hs : step p op with
    | none => simp only [run, hs] at hr; cases hr
    | some p0 =>
      simp only [run, hs] at hr
      rw [enqueuedTo_cons, List.length_append] at hroom
      obtain ⟨hreg0, hm0, ds0, hd0, hc0⟩ :=
        step_conserves p p0 K c op hreg (hops op (List.mem_cons_self _ _)) hs (by omega)
      have hlen := congrArg List.length hc0
      simp only [List.length_append, List.length_map] at hlen
      obtain ⟨ds1, hd1, hc1⟩ := ih p0 hreg0
        (fun o ho => hops o (List.mem_cons_of_mem _ ho)) hr (by rw [hm0]; omega)
      refine ⟨ds0 ++ ds1, by rw [hd1, hd0, List.append_assoc], ?_⟩
      rw [enqueuedTo_cons, List.map_append, List.append_assoc, hc1, ← List.append_assoc, hc0,
        List.append_assoc]

end RunFacts

/-! ## Bounded memory -/

/-- C1, as amended: for every `maxChannelSize` of at least 1 and every sequence
of `Subscribe`, `Unsubscribe`, `Enqueue` calls and dispatch passes from a freshly
constructed processor, the execution is defined and every channel of the
resulting state holds at most `maxChannelSize` values. -/
theorem bounded_memory {Key Value Consumer : Type} [DecidableEq Key] (maxChannelSize : Nat)
    (hcap : 1 ≤ maxChannelSize) (ops : List (Op Key Value Consumer)) :
    ∃ p1, run (MultiQueueProcessor.new maxChannelSize) ops = some p1 ∧
      ∀ (k : Key) (q : List Value), p1.channels_.find k = some q →
        q.length ≤ maxChannelSize := by
  have hw : ChannelsWithin maxChannelSize
      (MultiQueueProcessor.new maxChannelSize : MultiQueueProcessor Key Value Consumer).channels_ := by
    intro e he
    cases he
  obtain ⟨p1, hr, _, hw1⟩ := run_within ops (MultiQueueProcessor.new maxChannelSize) hcap hw
  exact ⟨p1, hr, fun k q hf => ChannelsWithin_find _ _ k q hw1 hf⟩

/-- Witness for C1: capacity 2, three values enqueued to key 7 around a
subscription and a dispatch pass. -/
theorem bounded_memory_witness :
    1 ≤ 2 ∧ ∃ p1, run (MultiQueueProcessor.new 2 : MultiQueueProcessor Nat Nat Nat)
        [Op.Enqueue 7 1, Op.Enqueue 7 2, Op.Subscribe 7 0, Op.Pass, Op.Enqueue 7 3,
          Op.Enqueue 7 4] = some p1 ∧
      ∀ (k : Nat) (q : List Nat), p1.channels_.find k = some q → q.length ≤ 2 :=
  ⟨by decide, bounded_memory 2 (by decide) _⟩

/-- C1 as stated fails for `maxChannelSize = 0`: the first `Enqueue` for a key
creates a channel holding one value, which is more than 0. -/
theorem bounded_memory_fails_at_zero :
    ¬ ∀ (maxChannelSize : Nat) (ops : List (Op Nat Nat Nat)) (k : Nat)
        (p1 : MultiQueueProcessor Nat Nat Nat) (q : List Nat),
        run (MultiQueueProcessor.new maxChannelSize) ops = some p1 →
        p1.channels_.find k = some q → q.length ≤ maxChannelSize := by
  intro h
  have h1 := h 0 [Op.Enqueue 7 1] 7 _ [1] rfl rfl
  exact absurd h1 (by decide)


/-! ## Subscribe -/

/-- C2, as amended: after `Subscribe(key, c)` the registry maps `key` to `c` when
`key` had no consumer before the call, and still maps `key` to the consumer it
had before the call otherwise (`std::unordered_map::insert` does not overwrite). -/
theorem Subscribe_inserts_or_keeps {Key Value Consumer : Type} [DecidableEq Key]
    (p : MultiQueueProcessor Key Value Consumer) (id : Key) (c : Consumer) :
    (Subscribe p id c).consumers_.find id = some ((p.consumers_.find id).getD c) := by
  cases h : p.consumers_.find id with
  | none => exact UnorderedMap.find_insert_of_none p.consumers_ id c h
  | some c0 => exact UnorderedMap.find_insert_of_some p.consumers_ id c c0 h

/-- C2 as stated fails: with consumer 1 registered for key 7, `Subscribe(7, 2)`
leaves the registry mapping key 7 to consumer 1. -/
theorem Subscribe_does_not_replace :
    ¬ ∀ (p : MultiQueueProcessor Nat Nat Nat) (id c : Nat),
        (Subscribe p id c).consumers_.find id = some c := by
  intro h
  exact absurd (h (Subscribe (MultiQueueProcessor.new 2) 7 1) 7 2) (by decide)

/-! ## Overwrite-oldest -/

/-- C3, as amended: for every capacity `cap` of at least 1 and every list
`v1 :: rest` of `cap + 1` distinct values, enqueuing them in order to one key of
a fresh processor, with nothing in between, is defined and leaves the channel of
that key equal to `rest`; `v1` is not in it. -/
theorem overwrite_oldest {Key Value Consumer : Type} [DecidableEq Key] (cap : Nat)
    (hcap : 1 ≤ cap) (K : Key) (v1 : Value) (rest : List Value) (hlen : rest.length = cap)
    (hnd : (v1 :: rest).Nodup) :
    ∃ p1 : MultiQueueProcessor Key Value Consumer,
      run (MultiQueueProcessor.new cap) ((v1 :: rest).map (Op.Enqueue K)) = some p1 ∧
        p1.channels_.find K = some rest ∧ v1 ∉ rest := by
  have hne : rest ≠ [] := by
    intro hc
    rw [hc] at hlen
    simp only [List.length_nil] at hlen
    omega
  have hsplit : rest = rest.dropLast ++ [rest.getLast hne] :=
    (List.dropLast_append_getLast hne).symm
  have hdl : rest.dropLast.length = cap - 1 := by
    rw [List.length_dropLast, hlen]
  let p0 : MultiQueueProcessor Key Value Consumer :=
    { (MultiQueueProcessor.new cap : MultiQueueProcessor Key Value Consumer) with
      channels_ := (UnorderedMap.empty : UnorderedMap Key (List Value)).insert K [v1] }
  have hf0 : p0.channels_.find K = some [v1] :=
    UnorderedMap.find_insert_of_none _ K [v1] (UnorderedMap.find_empty K)
  obtain ⟨p1, hr1, hf1, hm1⟩ := run_enqueue_fill rest.dropLast p0 K [v1] hf0
    (by
      show [v1].length + rest.dropLast.length ≤ cap
      rw [hdl, List.length_singleton]
      omega)
  have hfull : p1.maxChannelSize_ ≤ (v1 :: rest.dropLast).length := by
    rw [hm1, List.length_cons, hdl]
    show cap ≤ cap - 1 + 1
    omega
  have hE := Enqueue_of_full p1 K (rest.getLast hne) v1 rest.dropLast hf1 hfull
  refine ⟨{ p1 with channels_ := p1.channels_.assign K (rest.dropLast ++ [rest.getLast hne]) },
    ?_, ?_, (List.nodup_cons.mp hnd).1⟩
  · have hops : (v1 :: rest).map (Op.Enqueue K)
        = ([Op.Enqueue K v1] ++ rest.dropLast.map (Op.Enqueue K))
          ++ [(Op.Enqueue K (rest.getLast hne) : Op Key Value Consumer)] := by
      conv_lhs => rw [hsplit]
      simp
    have hr0 : run (MultiQueueProcessor.new cap : MultiQueueProcessor Key Value Consumer)
        ([Op.Enqueue K v1] ++ rest.dropLast.map (Op.Enqueue K)) = some p1 := by
      rw [run_append [Op.Enqueue K v1] _ (MultiQueueProcessor.new cap) p0 rfl]
      exact hr1
    rw [hops, run_append _ _ _ p1 hr0]
    simp only [run, step, hE]
  · show (p1.channels_.assign K (rest.dropLast ++ [rest.getLast hne])).find K = some rest
    rw [UnorderedMap.find_assign_of_some _ _ _ _ hf1, ← hsplit]

/-- Witness for C3: capacity 2, enqueue 1, 2, 3 to key 7: the channel is [2, 3]. -/
theorem overwrite_oldest_witness :
    1 ≤ 2 ∧ [2, 3].length = 2 ∧ (1 :: [2, 3]).Nodup ∧
      ∃ p1 : MultiQueueProcessor Nat Nat Nat,
        run (MultiQueueProcessor.new 2) ((1 :: [2, 3]).map (Op.Enqueue 7)) = some p1 ∧
          p1.channels_.find 7 = some [2, 3] ∧ 1 ∉ [2, 3] :=
  ⟨by decide, rfl, by decide, overwrite_oldest 2 (by decide) 7 1 [2, 3] rfl (by decide)⟩

/-- C3 as stated fails for capacity 0: the single value 1 enqueued to key 7 of a
fresh processor stays in the channel, which is [1] and not the empty list. -/
theorem overwrite_oldest_fails_at_zero :
    ¬ ∀ (cap K v1 : Nat) (rest : List Nat), rest.length = cap → (v1 :: rest).Nodup →
        ∃ p1 : MultiQueueProcessor Nat Nat Nat,
          run (MultiQueueProcessor.new cap) ((v1 :: rest).map (Op.Enqueue K)) = some p1 ∧
            p1.channels_.find K = some rest ∧ v1 ∉ rest := by
  intro h
  obtain ⟨p1, hr, hf, _⟩ := h 0 7 1 [] rfl (by decide)
  cases hr
  exact absurd hf (by decide)

/-! ## Enqueue -/

/-- C4, evaluated at the input where the code leaves the claim: with
`maxChannelSize = 0`, after `Enqueue(7, 1)`, `Subscribe(7, 5)` and one dispatch
pass the channel of key 7 exists and is empty, and the next `Enqueue(7, 2)`
takes the at-capacity branch and calls `pop_front` on the empty list, so the
execution has no defined result. -/
theorem Enqueue_pop_front_on_empty_channel :
    (run (MultiQueueProcessor.new 0 : MultiQueueProcessor Nat Nat Nat)
        [Op.Enqueue 7 1, Op.Subscribe 7 5, Op.Pass]).map
        (fun p => (p.maxChannelSize_, p.channels_.find 7)) = some (0, some []) ∧
      (run (MultiQueueProcessor.new 0 : MultiQueueProcessor Nat Nat Nat)
        [Op.Enqueue 7 1, Op.Subscribe 7 5, Op.Pass, Op.Enqueue 7 2]).isSome = false := by
  decide

/-! ## Unsubscribe -/

/-- C9: `Unsubscribe` is a total function on states (it reports no error); for a
key that is not registered it returns the state it was given, registry, channel
store and all; for any key it leaves that key unregistered and the registration
of every other key as it was. -/
theorem Unsubscribe_unknown_key_noop {Key Value Consumer : Type} [DecidableEq Key]
    (p : MultiQueueProcessor Key Value Consumer) (K : Key) :
    (p.consumers_.find K = none → Unsubscribe p K = p) ∧
      (Unsubscribe p K).consumers_.find K = none ∧
      (Unsubscribe p K).channels_ = p.channels_ ∧
      ∀ k : Key, k ≠ K → (Unsubscribe p K).consumers_.find k = p.consumers_.find k := by
  refine ⟨?_, UnorderedMap.find_erase_self _ _, rfl, ?_⟩
  · intro h
    show { p with consumers_ := p.consumers_.erase K } = p
    rw [UnorderedMap.erase_of_none _ _ h]
  · intro k hk
    exact UnorderedMap.find_erase_ne _ _ _ (fun hc => hk hc.symm)

/-- Witness for C9: key 8 is not registered in a processor where only key 7 is;
unsubscribing it changes nothing, and key 7 keeps its consumer. -/
theorem Unsubscribe_unknown_key_noop_witness :
    Unsubscribe (Subscribe (MultiQueueProcessor.new 2 : MultiQueueProcessor Nat Nat Nat) 7 1) 8
        = Subscribe (MultiQueueProcessor.new 2) 7 1 ∧
      (Unsubscribe (Subscribe (MultiQueueProcessor.new 2 : MultiQueueProcessor Nat Nat Nat) 7 1)
        7).consumers_.find 7 = none :=
  ⟨(Unsubscribe_unknown_key_noop _ 8).1 (by decide), (Unsubscribe_unknown_key_noop _ 7).2.1⟩

/-! ## Independent keys -/

/-- C10: for distinct keys `A` and `B`, `Enqueue(A, v)` is defined except when
`maxChannelSize` is 0 and the channel of `A` exists and is empty, and whenever it
is defined the channel of `B` is found exactly as before: missing if it was
missing, and the same list otherwise, also when the head of the channel of `A`
is evicted. -/
theorem Enqueue_independent_keys {Key Value Consumer : Type} [DecidableEq Key]
    (p : MultiQueueProcessor Key Value Consumer) (A B : Key) (v : Value) (hAB : A ≠ B) :
    (Enqueue p A v = none ↔ p.maxChannelSize_ = 0 ∧ p.channels_.find A = some []) ∧
      ∀ p1, Enqueue p A v = some p1 → p1.channels_.find B = p.channels_.find B :=
  ⟨Enqueue_eq_none_iff p A v, fun p1 h => Enqueue_find_ne p p1 A B v hAB h⟩

/-- Witness for C10: in `backlogState` the channel of key 7 is at capacity;
`Enqueue(7, 4)` evicts its head and the channel of key 8 is untouched. -/
theorem Enqueue_independent_keys_witness :
    7 ≠ 8 ∧ ∃ p1, Enqueue backlogState 7 4 = some p1 ∧ p1.channels_.find 7 = some [3, 4] ∧
      p1.channels_.find 8 = backlogState.channels_.find 8 :=
  ⟨by decide, _, rfl, by decide,
    (Enqueue_independent_keys backlogState 7 8 4 (by decide)).2 _ rfl⟩

/-! ## FIFO per key -/

/-- C5: let key `K` be registered to consumer `c` with an empty or missing
channel, and let `ops` be any sequence of steps that contains no `Subscribe` or
`Unsubscribe` for `K` and at most `maxChannelSize` calls `Enqueue(K, v)`.  Then
the execution is defined whenever `maxChannelSize` is at least 1, and in every
defined execution the `Consume` calls made for `K` during `ops`, all of them to
`c`, followed by the values left in the channel of `K`, are exactly the values
enqueued to `K`, in enqueue order. -/
theorem fifo_per_key_no_loss {Key Value Consumer : Type} [DecidableEq Key]
    (p : MultiQueueProcessor Key Value Consumer) (K : Key) (c : Consumer)
    (ops : List (Op Key Value Consumer)) (hreg : p.consumers_.find K = some c)
    (hempty : channel p K = [])
    (hops : ∀ op ∈ ops, changesRegistration K op = false)
    (hN : (enqueuedTo K ops).length ≤ p.maxChannelSize_) :
    (1 ≤ p.maxChannelSize_ → ∃ p1, run p ops = some p1) ∧
      ∀ p1, run p ops = some p1 →
        ∃ ds, deliveredFor p1 K = deliveredFor p K ++ ds ∧
          ds ++ (channel p1 K).map (Delivery.mk c K)
            = (enqueuedTo K ops).map (Delivery.mk c K) := by
  refine ⟨run_defined ops p, fun p1 hr => ?_⟩
  obtain ⟨ds, hd, hc⟩ := run_conserves ops p p1 K c hreg hops hr
    (by rw [hempty]; simpa using hN)
  refine ⟨ds, hd, ?_⟩
  rw [hc, hempty]
  rfl

/-- Witness for C5: key 7 registered to consumer 0 in a fresh processor of
capacity 2; values 1 and 2 are enqueued to key 7 around a pass and steps on
key 8. -/
theorem fifo_per_key_no_loss_witness :
    ∃ p1, run (Subscribe (MultiQueueProcessor.new 2 : MultiQueueProcessor Nat Nat Nat) 7 0)
        [Op.Enqueue 7 1, Op.Enqueue 8 9, Op.Pass, Op.Enqueue 7 2, Op.Subscribe 8 1] = some p1 ∧
      ∃ ds, deliveredFor p1 7
          = deliveredFor (Subscribe (MultiQueueProcessor.new 2 : MultiQueueProcessor Nat Nat Nat)
              7 0) 7 ++ ds ∧
        ds ++ (channel p1 7).map (Delivery.mk 0 7) = [1, 2].map (Delivery.mk 0 7) :=
  ⟨_, rfl,
    (fifo_per_key_no_loss (Subscribe (MultiQueueProcessor.new 2) 7 0) 7 0
      [Op.Enqueue 7 1, Op.Enqueue 8 9, Op.Pass, Op.Enqueue 7 2, Op.Subscribe 8 1]
      (by decide) (by decide) (by decide) (by decide)).2 _ rfl⟩

/-! ## The dispatch pass -/

/-- C6: a dispatch pass appends its `Consume` calls to those made before; among
them at most one has key `k`; if `k` is registered to `c` and its channel is
`v :: q`, exactly the call `Consume(k, v)` on `c` has key `k` and the channel
becomes `q`; if `k` is registered and its channel is empty or missing, no call
has key `k` and the channel is found as before. -/
theorem one_delivery_per_key_per_pass {Key Value Consumer : Type} [DecidableEq Key]
    (p : MultiQueueProcessor Key Value Consumer) (k : Key) :
    (ProcessPass p).delivered = p.delivered ++ passDeliveries p ∧
      ((passDeliveries p).filter (fun d => decide (d.id = k))).length ≤ 1 ∧
      (∀ (c : Consumer) (v : Value) (q : List Value),
        p.consumers_.find k = some c → p.channels_.find k = some (v :: q) →
          (passDeliveries p).filter (fun d => decide (d.id = k)) = [⟨c, k, v⟩] ∧
            (ProcessPass p).channels_.find k = some q) ∧
      (∀ c : Consumer, p.consumers_.find k = some c → channel p k = [] →
          (passDeliveries p).filter (fun d => decide (d.id = k)) = [] ∧
            (ProcessPass p).channels_.find k = p.channels_.find k) := by
  refine ⟨rfl, ?_, ?_, ?_⟩
  · rw [passDeliveries_filter]
    cases p.consumers_.find k with
    | none => simp [servedDeliveries]
    | some c =>
      cases p.channels_.find k with
      | none => simp [servedDeliveries]
      | some q =>
        cases q with
        | nil => simp [servedDeliveries]
        | cons v q => simp [servedDeliveries]
  · intro c v q hc hq
    rw [passDeliveries_filter, ProcessPass_find, hc, hq]
    exact ⟨rfl, rfl⟩
  · intro c hc hq
    rw [passDeliveries_filter, ProcessPass_find, hc]
    cases hf : p.channels_.find k with
    | none => exact ⟨rfl, rfl⟩
    | some q =>
      have hq0 : q = [] := by simpa [channel, hf] using hq
      subst hq0
      exact ⟨rfl, rfl⟩

/-- Witness for C6: in `twoKeysState` keys 7 and 8 are both served by one pass,
each with the head of its channel, and key 9, registered without a channel, is
not served. -/
theorem one_delivery_per_key_per_pass_witness :
    ((passDeliveries twoKeysState).filter (fun d => decide (d.id = 7)) = [⟨0, 7, 1⟩] ∧
        (ProcessPass twoKeysState).channels_.find 7 = some [2]) ∧
      ((passDeliveries twoKeysState).filter (fun d => decide (d.id = 8)) = [⟨1, 8, 5⟩] ∧
        (ProcessPass twoKeysState).channels_.find 8 = some []) ∧
      ((passDeliveries twoKeysState).filter (fun d => decide (d.id = 9)) = [] ∧
        (ProcessPass twoKeysState).channels_.find 9 = twoKeysState.channels_.find 9) :=
  ⟨(one_delivery_per_key_per_pass twoKeysState 7).2.2.1 0 1 [2] (by decide) (by decide),
    (one_delivery_per_key_per_pass twoKeysState 8).2.2.1 1 5 [] (by decide) (by decide),
    (one_delivery_per_key_per_pass twoKeysState 9).2.2.2 2 (by decide) (by decide)⟩

/-! ## Late subscription -/

/-- C7: if key `K` is not registered and its channel is `q`, then after
`Subscribe(K, C)` and `length q` dispatch passes the channel of `K` is empty and
the `Consume` calls made for `K` since are exactly the values of `q`, in order,
each on consumer `C`. -/
theorem late_subscribe_delivers_backlog {Key Value Consumer : Type} [DecidableEq Key]
    (p : MultiQueueProcessor Key Value Consumer) (K : Key) (C : Consumer) (q : List Value)
    (hunreg : p.consumers_.find K = none) (hq : p.channels_.find K = some q) :
    (passes q.length (Subscribe p K C)).channels_.find K = some [] ∧
      deliveredFor (passes q.length (Subscribe p K C)) K
        = deliveredFor p K ++ q.map (Delivery.mk C K) := by
  have hreg : (Subscribe p K C).consumers_.find K = some C :=
    UnorderedMap.find_insert_of_none p.consumers_ K C hunreg
  obtain ⟨h1, h2⟩ := passes_drain q.length (Subscribe p K C) K C q hreg hq
  rw [List.drop_length] at h1
  rw [List.take_length] at h2
  exact ⟨h1, h2⟩

/-- Witness for C7: capacity 2, values 1, 2, 3 enqueued to key 7, then
`Subscribe(7, 0)` and two passes: consumer 0 receives 2 then 3, and not 1. -/
theorem late_subscribe_delivers_backlog_witness :
    (passes 2 (Subscribe backlogState 7 0)).channels_.find 7 = some [] ∧
      deliveredFor (passes 2 (Subscribe backlogState 7 0)) 7
        = [] ++ [(⟨0, 7, 2⟩ : Delivery Nat Nat Nat), ⟨0, 7, 3⟩] :=
  late_subscribe_delivers_backlog backlogState 7 0 [2, 3] (by decide) (by decide)

/-! ## Unsubscribe stops delivery -/

/-- C8: after `Unsubscribe(K)` key `K` is not registered and the channel store is
the one before the call; after any number `n` of dispatch passes `K` is still
not registered, no `Consume` call has been made for `K` and the channel of `K`
is found as before; and if that channel is `v :: q`, then `Subscribe(K, C)`
followed by one pass makes exactly the call `Consume(K, v)` on `C` for key `K`
and leaves `q` in the channel. -/
theorem Unsubscribe_stops_delivery {Key Value Consumer : Type} [DecidableEq Key]
    (p : MultiQueueProcessor Key Value Consumer) (K : Key) :
    (Unsubscribe p K).consumers_.find K = none ∧
      (Unsubscribe p K).channels_ = p.channels_ ∧
      ∀ n : Nat,
        (passes n (Unsubscribe p K)).consumers_.find K = none ∧
        (passes n (Unsubscribe p K)).channels_.find K = p.channels_.find K ∧
        deliveredFor (passes n (Unsubscribe p K)) K = deliveredFor p K ∧
        ∀ (C : Consumer) (v : Value) (q : List Value), p.channels_.find K = some (v :: q) →
          (passDeliveries (Subscribe (passes n (Unsubscribe p K)) K C)).filter
              (fun d => decide (d.id = K)) = [⟨C, K, v⟩] ∧
            (ProcessPass (Subscribe (passes n (Unsubscribe p K)) K C)).channels_.find K
              = some q := by
  have hun : (Unsubscribe p K).consumers_.find K = none := UnorderedMap.find_erase_self _ _
  refine ⟨hun, rfl, fun n => ?_⟩
  obtain ⟨h1, h2⟩ := passes_unregistered n (Unsubscribe p K) K hun
  have hn : (passes n (Unsubscribe p K)).consumers_.find K = none := by
    rw [passes_consumers]
    exact hun
  refine ⟨hn, h1, h2, fun C v q hq => ?_⟩
  have hreg : (Subscribe (passes n (Unsubscribe p K)) K C).consumers_.find K = some C :=
    UnorderedMap.find_insert_of_none _ K C hn
  have hch : (Subscribe (passes n (Unsubscribe p K)) K C).channels_.find K = some (v :: q) :=
    h1.trans hq
  rw [passDeliveries_filter, ProcessPass_find, hreg, hch]
  exact ⟨rfl, rfl⟩

/-- Witness for C8: key 7 is registered to consumer 0 with channel [2, 3]; after
`Unsubscribe(7)`, three passes, and `Subscribe(7, 1)`, one pass hands 2 to
consumer 1 and leaves [3]. -/
theorem Unsubscribe_stops_delivery_witness :
    (passDeliveries (Subscribe (passes 3 (Unsubscribe (Subscribe backlogState 7 0) 7)) 7
        1)).filter (fun d => decide (d.id = 7)) = [⟨1, 7, 2⟩] ∧
      (ProcessPass (Subscribe (passes 3 (Unsubscribe (Subscribe backlogState 7 0) 7)) 7
        1)).channels_.find 7 = some [3] :=
  (Unsubscribe_stops_delivery (Subscribe backlogState 7 0) 7).2.2 3 |>.2.2.2 1 2 [3]
    (by decide)

/-! ## Frames between registry and channel store -/

/-- C17: `Subscribe` and `Unsubscribe` return the channel store they were given;
`Enqueue`, which is defined except when `maxChannelSize` is 0 and the channel of
the key is empty, and a dispatch pass return the registry they were given; and a
dispatch pass leaves the channel of a key that is not registered as it finds
it. -/
theorem registry_and_channels_framed {Key Value Consumer : Type} [DecidableEq Key]
    (p : MultiQueueProcessor Key Value Consumer) :
    (∀ (id : Key) (c : Consumer), (Subscribe p id c).channels_ = p.channels_) ∧
      (∀ id : Key, (Unsubscribe p id).channels_ = p.channels_) ∧
      (∀ (id : Key) (v : Value),
        (Enqueue p id v = none ↔ p.maxChannelSize_ = 0 ∧ p.channels_.find id = some []) ∧
          ∀ p1, Enqueue p id v = some p1 → p1.consumers_ = p.consumers_) ∧
      (ProcessPass p).consumers_ = p.consumers_ ∧
      (∀ k : Key, p.consumers_.find k = none →
        (ProcessPass p).channels_.find k = p.channels_.find k) := by
  refine ⟨fun _ _ => rfl, fun _ => rfl, fun id v => ?_, rfl, fun k hk => ?_⟩
  · exact ⟨Enqueue_eq_none_iff p id v, fun p1 h => (Enqueue_frame p p1 id v h).2.1⟩
  · rw [ProcessPass_find, hk]
    rfl

/-- Witness for C17: in `backlogState` no key is registered; `Enqueue(7, 4)`
leaves the registry as it was and a pass leaves the channel of key 7 as it
was. -/
theorem registry_and_channels_framed_witness :
    (∃ p1, Enqueue backlogState 7 4 = some p1 ∧ p1.consumers_ = backlogState.consumers_) ∧
      (ProcessPass backlogState).channels_.find 7 = some [2, 3] :=
  ⟨⟨_, rfl, ((registry_and_channels_framed backlogState).2.2.1 7 4).2 _ rfl⟩,
    (registry_and_channels_framed backlogState).2.2.2.2 7 (by decide)⟩

/-! ## Effective capacity -/

section CapacityFacts

variable {Key Value Consumer : Type} [DecidableEq Key]

/-- `Enqueue` keeps every channel within any bound `n` that is at least 1 and at
least `maxChannelSize_`. -/
theorem Enqueue_within_bound (n : Nat) (p p1 : MultiQueueProcessor Key Value Consumer)
    (id : Key) (value : Value) (hn : 1 ≤ n) (hcap : p.maxChannelSize_ ≤ n)
    (hw : ChannelsWithin n p.channels_) (h : Enqueue p id value = some p1) :
    ChannelsWithin n p1.channels_ := by
  rcases Enqueue_cases p p1 id value h with ⟨_, rfl⟩ | ⟨q, hf, hlt, rfl⟩ | ⟨x, q, hf, _, rfl⟩
  · exact ChannelsWithin_insert _ _ _ _ hw hn
  · apply ChannelsWithin_assign _ _ _ _ hw
    simp only [List.length_append, List.length_singleton]
    omega
  · apply ChannelsWithin_assign _ _ _ _ hw
    have := ChannelsWithin_find _ _ _ _ hw hf
    simp only [List.length_cons] at this
    simp only [List.length_append, List.length_singleton]
    omega

theorem run_within_bound (n : Nat) (ops : List (Op Key Value Consumer))
    (p p1 : MultiQueueProcessor Key Value Consumer) (hn : 1 ≤ n)
    (hcap : p.maxChannelSize_ ≤ n) (hw : ChannelsWithin n p.channels_)
    (hr : run p ops = some p1) : ChannelsWithin n p1.channels_ := by
  induction ops generalizing p with
  | nil =>
    cases hr
    exact hw
  | cons op ops ih =>
    cases hs : step p op with
    | none => simp only [run, hs] at hr; cases hr
    | some p0 =>
      simp only [run, hs] at hr
      have hm := step_maxChannelSize p p0 op hs
      refine ih p0 (by rw [hm]; exact hcap) ?_ hr
      cases op with
      | Subscribe id consumer => cases hs; exact hw
      | Unsubscribe id => cases hs; exact hw
      | Enqueue id value => exact Enqueue_within_bound n p p0 id value hn hcap hw hs
      | Pass =>
        cases hs
        exact ChannelsWithin_processEntries _ _ _ hw

/-- Enqueuing `max cap 1` values to one key of a fresh processor fills its
channel to length `max cap 1`. -/
theorem run_fill_fresh (cap : Nat) (k : Key) (v : Value) :
    ∃ p1 : MultiQueueProcessor Key Value Consumer,
      run (MultiQueueProcessor.new cap) (List.replicate (max cap 1) (Op.Enqueue k v)) = some p1 ∧
        ∃ q, p1.channels_.find k = some q ∧ q.length = max cap 1 := by
  let p0 : MultiQueueProcessor Key Value Consumer :=
    { (MultiQueueProcessor.new cap : MultiQueueProcessor Key Value Consumer) with
      channels_ := (UnorderedMap.empty : UnorderedMap Key (List Value)).insert k [v] }
  have hf0 : p0.channels_.find k = some [v] :=
    UnorderedMap.find_insert_of_none _ k [v] (UnorderedMap.find_empty k)
  have hstep : run (MultiQueueProcessor.new cap : MultiQueueProcessor Key Value Consumer)
      [Op.Enqueue k v] = some p0 := rfl
  by_cases h0 : cap = 0
  · subst h0
    exact ⟨p0, hstep, [v], hf0, rfl⟩
  · have hmax : max cap 1 = (cap - 1) + 1 := by omega
    obtain ⟨p1, hr1, hf1, _⟩ := run_enqueue_fill (List.replicate (cap - 1) v) p0 k [v] hf0
      (by
        show [v].length + (List.replicate (cap - 1) v).length ≤ cap
        rw [List.length_replicate, List.length_singleton]
        omega)
    refine ⟨p1, ?_, [v] ++ List.replicate (cap - 1) v, hf1, ?_⟩
    · rw [hmax, List.replicate_succ]
      have hmap : (List.replicate (cap - 1) v).map (Op.Enqueue k)
          = List.replicate (cap - 1) (Op.Enqueue k v : Op Key Value Consumer) := by
        simp
      rw [← hmap]
      show run _ ([Op.Enqueue k v] ++ _) = some p1
      rw [run_append _ _ _ p0 hstep]
      exact hr1
    · rw [List.length_append, List.length_replicate, List.length_singleton]
      omega

end CapacityFacts

/-- C15: from a fresh processor, every execution is defined when
`maxChannelSize` is at least 1; in every defined execution every channel holds
at most `max maxChannelSize 1` values; and the bound is attained: enqueuing
`max maxChannelSize 1` values to one key leaves a channel of exactly that
length (for `maxChannelSize = 0` the first `Enqueue` stores one value). -/
theorem effective_capacity (Key Value Consumer : Type) [DecidableEq Key] (cap : Nat) :
    (1 ≤ cap → ∀ ops : List (Op Key Value Consumer),
        ∃ p1, run (MultiQueueProcessor.new cap) ops = some p1) ∧
      (∀ (ops : List (Op Key Value Consumer)) (p1 : MultiQueueProcessor Key Value Consumer),
        run (MultiQueueProcessor.new cap) ops = some p1 →
          ∀ (k : Key) (q : List Value), p1.channels_.find k = some q →
            q.length ≤ max cap 1) ∧
      (∀ (k : Key) (v : Value), ∃ p1 : MultiQueueProcessor Key Value Consumer,
        run (MultiQueueProcessor.new cap) (List.replicate (max cap 1) (Op.Enqueue k v))
            = some p1 ∧
          ∃ q, p1.channels_.find k = some q ∧ q.length = max cap 1) := by
  refine ⟨fun hcap ops => run_defined ops _ hcap, fun ops p1 hr k q hf => ?_,
    fun k v => run_fill_fresh cap k v⟩
  have hw : ChannelsWithin (max cap 1)
      (MultiQueueProcessor.new cap : MultiQueueProcessor Key Value Consumer).channels_ := by
    intro e he
    cases he
  have hw1 := run_within_bound (max cap 1) ops (MultiQueueProcessor.new cap) p1
    (Nat.le_max_right cap 1) (Nat.le_max_left cap 1) hw hr
  exact ChannelsWithin_find _ _ k q hw1 hf

/-- Witness for C15: with `maxChannelSize = 0`, after `Enqueue(7, 1)`,
`Enqueue(7, 2)` the channel of key 7 is [2], of length 1 = max 0 1. -/
theorem effective_capacity_witness :
    ∃ p1 : MultiQueueProcessor Nat Nat Nat,
      run (MultiQueueProcessor.new 0) [Op.Enqueue 7 1, Op.Enqueue 7 2] = some p1 ∧
        p1.channels_.find 7 = some [2] ∧ [2].length ≤ max 0 1 :=
  ⟨_, rfl, rfl,
    (effective_capacity Nat Nat Nat 0).2.1 [Op.Enqueue 7 1, Op.Enqueue 7 2] _ rfl 7 [2] rfl⟩

/-! ## Lazy creation and persistence of channels -/

section ChannelFacts

variable {Key Value Consumer : Type} [DecidableEq Key]

/-- A step leaves a channel for `K` exactly when there was one before or the
step is an `Enqueue` for `K`. -/
theorem step_channel_iff (p p1 : MultiQueueProcessor Key Value Consumer)
    (op : Op Key Value Consumer) (K : Key) (hs : step p op = some p1) :
    (p1.channels_.find K).isSome = true ↔
      (p.channels_.find K).isSome = true ∨ enqueuedTo K [op] ≠ [] := by
  cases op with
  | Subscribe id consumer =>
    cases hs
    simp [Subscribe, enqueuedTo]
  | Unsubscribe id =>
    cases hs
    simp [Unsubscribe, enqueuedTo]
  | Enqueue id value =>
    have hE : Enqueue p id value = some p1 := hs
    by_cases hk : id = K
    · subst hk
      have hsome : (p1.channels_.find id).isSome = true := by
        rcases Enqueue_find_self p p1 id value hE with
          ⟨_, hf1⟩ | ⟨_, _, _, hf1⟩ | ⟨_, _, _, _, hf1⟩ <;> simp [hf1]
      simp [hsome, enqueuedTo]
    · rw [Enqueue_find_ne p p1 id K value hk hE]
      simp [enqueuedTo, hk]
  | Pass =>
    cases hs
    rw [ProcessPass_find]
    have hserved : (servedChannel (p.channels_.find K)).isSome = (p.channels_.find K).isSome := by
      cases hf : p.channels_.find K with
      | none => rfl
      | some q => cases q <;> rfl
    cases hc : (p.consumers_.find K).isSome <;> simp [hserved, enqueuedTo]

theorem run_channel_iff (ops : List (Op Key Value Consumer))
    (p p1 : MultiQueueProcessor Key Value Consumer) (K : Key) (hr : run p ops = some p1) :
    (p1.channels_.find K).isSome = true ↔
      (p.channels_.find K).isSome = true ∨ enqueuedTo K ops ≠ [] := by
  induction ops generalizing p with
  | nil =>
    cases hr
    simp [enqueuedTo]
  | cons op ops ih =>
    cases hs : step p op with
    | none => simp only [run, hs] at hr; cases hr
    | some p0 =>
      simp only [run, hs] at hr
      have he := enqueuedTo_cons K op ops
      rw [ih p0 hr, step_channel_iff p p0 op K hs, he]
      simp only [ne_eq, List.append_eq_nil, not_and_or]
      tauto

end ChannelFacts

/-- C12: from a fresh processor, every execution is defined when
`maxChannelSize` is at least 1; after every defined execution a key has a
channel exactly when the execution contains an `Enqueue` for that key; and from
any state, no step (`Subscribe`, `Unsubscribe`, `Enqueue`, dispatch pass) takes
a channel out of the channel store. -/
theorem channels_lazy_and_persistent {Key Value Consumer : Type} [DecidableEq Key]
    (cap : Nat) (ops : List (Op Key Value Consumer)) (K : Key) :
    (1 ≤ cap → ∃ p1, run (MultiQueueProcessor.new cap) ops = some p1) ∧
      (∀ p1 : MultiQueueProcessor Key Value Consumer,
        run (MultiQueueProcessor.new cap) ops = some p1 →
          ((p1.channels_.find K).isSome = true ↔ enqueuedTo K ops ≠ [])) ∧
      (∀ (p p1 : MultiQueueProcessor Key Value Consumer) (op : Op Key Value Consumer),
        step p op = some p1 → (p.channels_.find K).isSome = true →
          (p1.channels_.find K).isSome = true) := by
  refine ⟨fun hcap => run_defined ops _ hcap, fun p1 hr => ?_, fun p p1 op hs hp => ?_⟩
  · rw [run_channel_iff ops _ p1 K hr]
    have hnone : ((MultiQueueProcessor.new cap :
        MultiQueueProcessor Key Value Consumer).channels_.find K).isSome = false := rfl
    simp [hnone]
  · exact (step_channel_iff p p1 op K hs).mpr (Or.inl hp)

/-- Witness for C12: capacity 2, key 7 is enqueued to once and drained to empty
by a pass, then unsubscribed; its channel is still in the store, and key 8,
never enqueued to, has none. -/
theorem channels_lazy_and_persistent_witness :
    ∃ p1 : MultiQueueProcessor Nat Nat Nat,
      run (MultiQueueProcessor.new 2)
          [Op.Subscribe 7 0, Op.Subscribe 8 1, Op.Enqueue 7 1, Op.Pass, Op.Unsubscribe 7]
          = some p1 ∧
        p1.channels_.find 7 = some [] ∧ p1.channels_.find 8 = none ∧
        (p1.channels_.find 7).isSome = true :=
  ⟨_, rfl, rfl, rfl,
    ((channels_lazy_and_persistent 2
      [Op.Subscribe 7 0, Op.Subscribe 8 1, Op.Enqueue 7 1, Op.Pass, Op.Unsubscribe 7] 7).2.1
      _ rfl).mpr (by decide)⟩

/-! ## FIFO under overflow -/

section OverflowFacts

variable {Key Value Consumer : Type} [DecidableEq Key]

/-- A dispatch pass moves at most the head of the channel of `K` to the end of
the values delivered for `K`: the two read one after the other are unchanged. -/
theorem ProcessPass_delivered_then_queued (p : MultiQueueProcessor Key Value Consumer)
    (K : Key) :
    deliveredValues (deliveredFor (ProcessPass p) K) ++ channel (ProcessPass p) K
      = deliveredValues (deliveredFor p K) ++ channel p K := by
  rw [deliveredFor_ProcessPass]
  simp only [channel, ProcessPass_find, deliveredValues, List.map_append]
  cases hc : p.consumers_.find K with
  | none => simp [servedDeliveries]
  | some c =>
    cases hf : p.channels_.find K with
    | none => simp [servedDeliveries, servedChannel]
    | some q =>
      cases q with
      | nil => simp [servedDeliveries, servedChannel]
      | cons x q => simp [servedDeliveries, servedChannel]

/-- After a step, the values delivered for `K` followed by the channel of `K`
are a subsequence of any list they were a subsequence of before, extended by
what the step enqueues to `K`. -/
theorem step_sublist (p p1 : MultiQueueProcessor Key Value Consumer)
    (op : Op Key Value Consumer) (K : Key) (hist : List Value) (hs : step p op = some p1)
    (h : (deliveredValues (deliveredFor p K) ++ channel p K).Sublist hist) :
    (deliveredValues (deliveredFor p1 K) ++ channel p1 K).Sublist
      (hist ++ enqueuedTo K [op]) := by
  cases op with
  | Subscribe id consumer =>
    cases hs
    simpa [enqueuedTo, Subscribe, deliveredFor, channel] using h
  | Unsubscribe id =>
    cases hs
    simpa [enqueuedTo, Unsubscribe, deliveredFor, channel] using h
  | Enqueue id value =>
    have hE : Enqueue p id value = some p1 := hs
    obtain ⟨_, _, _, hd⟩ := Enqueue_frame p p1 id value hE
    have hdel : deliveredFor p1 K = deliveredFor p K := by simp [deliveredFor, hd]
    rw [hdel]
    by_cases hk : id = K
    · subst hk
      have he : enqueuedTo id [(Op.Enqueue id value : Op Key Value Consumer)] = [value] := by
        simp [enqueuedTo]
      rw [he]
      have hch : ∃ q, channel p1 id = q ++ [value] ∧ q.Sublist (channel p id) := by
        rcases Enqueue_find_self p p1 id value hE with
          ⟨hf, hf1⟩ | ⟨q, hf, _, hf1⟩ | ⟨x, q, hf, _, hf1⟩
        · exact ⟨[], by simp [channel, hf1], by simp⟩
        · exact ⟨q, by simp [channel, hf1], by simp [channel, hf]⟩
        · exact ⟨q, by simp [channel, hf1], by simp [channel, hf]⟩
      obtain ⟨q, hq, hsub⟩ := hch
      rw [hq, ← List.append_assoc]
      exact List.Sublist.append
        (List.Sublist.trans (List.Sublist.append (List.Sublist.refl _) hsub) h)
        (List.Sublist.refl _)
    · have he : enqueuedTo K [(Op.Enqueue id value : Op Key Value Consumer)] = [] := by
        simp [enqueuedTo, hk]
      have hch : channel p1 K = channel p K := by
        simp [channel, Enqueue_find_ne p p1 id K value hk hE]
      rw [he, hch, List.append_nil]
      exact h
  | Pass =>
    cases hs
    rw [ProcessPass_delivered_then_queued]
    simpa [enqueuedTo] using h

theorem run_sublist (ops : List (Op Key Value Consumer))
    (p p1 : MultiQueueProcessor Key Value Consumer) (K : Key) (hist : List Value)
    (hr : run p ops = some p1)
    (h : (deliveredValues (deliveredFor p K) ++ channel p K).Sublist hist) :
    (deliveredValues (deliveredFor p1 K) ++ channel p1 K).Sublist
      (hist ++ enqueuedTo K ops) := by
  induction ops generalizing p hist with
  | nil =>
    cases hr
    simpa [enqueuedTo] using h
  | cons op ops ih =>
    cases hs : step p op with
    | none => simp only [run, hs] at hr; cases hr
    | some p0 =>
      simp only [run, hs] at hr
      have he := enqueuedTo_cons K op ops
      rw [he, ← List.append_assoc]
      exact ih p0 (hist ++ enqueuedTo K [op]) hr (step_sublist p p0 op K hist hs h)

end OverflowFacts

/-- C11: from a fresh processor, every execution is defined when
`maxChannelSize` is at least 1, and after every defined execution the values
delivered for key `K`, in delivery order, form a subsequence of the values
enqueued to `K`, in enqueue order: they are picked from distinct enqueue
positions in increasing order, evictions or not. -/
theorem fifo_under_overflow {Key Value Consumer : Type} [DecidableEq Key] (cap : Nat)
    (ops : List (Op Key Value Consumer)) (K : Key) :
    (1 ≤ cap → ∃ p1, run (MultiQueueProcessor.new cap) ops = some p1) ∧
      ∀ p1 : MultiQueueProcessor Key Value Consumer,
        run (MultiQueueProcessor.new cap) ops = some p1 →
          (deliveredValues (deliveredFor p1 K)).Sublist (enqueuedTo K ops) := by
  refine ⟨fun hcap => run_defined ops _ hcap, fun p1 hr => ?_⟩
  have h0 : (deliveredValues (deliveredFor (MultiQueueProcessor.new cap :
      MultiQueueProcessor Key Value Consumer) K)
        ++ channel (MultiQueueProcessor.new cap : MultiQueueProcessor Key Value Consumer) K).Sublist
      [] := List.Sublist.refl _
  have h1 := run_sublist ops _ p1 K [] hr h0
  rw [List.nil_append] at h1
  exact List.Sublist.trans (List.sublist_append_left _ _) h1

/-- Witness for C11: capacity 1, values 1, 2, 3, 4 enqueued to key 7 with passes
after the second and the fourth: 2 and 4 are delivered, 1 and 3 were evicted. -/
theorem fifo_under_overflow_witness :
    ∃ p1 : MultiQueueProcessor Nat Nat Nat,
      run (MultiQueueProcessor.new 1)
          [Op.Subscribe 7 0, Op.Enqueue 7 1, Op.Enqueue 7 2, Op.Pass, Op.Enqueue 7 3,
            Op.Enqueue 7 4, Op.Pass] = some p1 ∧
        deliveredValues (deliveredFor p1 7) = [2, 4] ∧
        (deliveredValues (deliveredFor p1 7)).Sublist [1, 2, 3, 4] :=
  ⟨_, rfl, rfl,
    (fifo_under_overflow 1
      [Op.Subscribe 7 0, Op.Enqueue 7 1, Op.Enqueue 7 2, Op.Pass, Op.Enqueue 7 3,
        Op.Enqueue 7 4, Op.Pass] 7).2 _ rfl⟩

/-! ## Independence of the registry iteration order -/

section OrderFacts

variable {Key Value Consumer : Type} [DecidableEq Key]

theorem lookup_of_mem {β : Type} (es : List (Key × β)) (hnd : (es.map Prod.fst).Nodup)
    (k : Key) (b : β) (h : (k, b) ∈ es) : UnorderedMap.lookup es k = some b := by
  induction es with
  | nil => cases h
  | cons e es ih =>
    rw [List.map_cons, List.nodup_cons] at hnd
    rcases List.mem_cons.mp h with rfl | hmem
    · simp [UnorderedMap.lookup]
    · have hne : e.1 ≠ k := by
        intro hc
        apply hnd.1
        rw [hc]
        exact List.mem_map_of_mem Prod.fst hmem
      simp only [UnorderedMap.lookup, hne, if_false]
      exact ih hnd.2 hmem

/-- Two enumerations of the same duplicate-free entries map every key to the
same value. -/
theorem lookup_perm {β : Type} (es1 es2 : List (Key × β)) (hperm : es1.Perm es2)
    (hnd : (es1.map Prod.fst).Nodup) (k : Key) :
    UnorderedMap.lookup es1 k = UnorderedMap.lookup es2 k := by
  have hnd2 : (es2.map Prod.fst).Nodup := (hperm.map Prod.fst).nodup_iff.mp hnd
  cases h1 : UnorderedMap.lookup es1 k with
  | none =>
    have hk := (UnorderedMap.lookup_eq_none_iff es1 k).mp h1
    have hk2 : k ∉ es2.map Prod.fst := fun hc => hk ((hperm.map Prod.fst).mem_iff.mpr hc)
    exact ((UnorderedMap.lookup_eq_none_iff es2 k).mpr hk2).symm
  | some b =>
    have hmem := UnorderedMap.mem_of_lookup es1 k b h1
    exact (lookup_of_mem es2 hnd2 k b (hperm.mem_iff.mp hmem)).symm

theorem assign_keys (ch : UnorderedMap Key (List Value)) (k : Key) (q : List Value) :
    (ch.assign k q).entries.map Prod.fst = ch.entries.map Prod.fst := by
  simp only [UnorderedMap.assign, List.map_map]
  apply List.map_congr_left
  intro e _
  by_cases hk : e.1 = k <;> simp [hk]

theorem processEntries_keys (es : List (Key × Consumer)) (ch : UnorderedMap Key (List Value)) :
    (processEntries es ch).1.entries.map Prod.fst = ch.entries.map Prod.fst := by
  induction es generalizing ch with
  | nil => rfl
  | cons e es ih =>
    cases hf : ch.find e.1 with
    | none => rw [processEntries_cons_none e es ch hf, ih]
    | some q =>
      cases q with
      | nil => rw [processEntries_cons_nil e es ch hf, ih]
      | cons value q =>
        rw [processEntries_cons_some e es ch value q hf]
        simp only
        rw [ih, assign_keys]

/-- Two maps with the same keys in the same positions and the same value for
every key are the same map. -/
theorem entries_eq_of_lookup {β : Type} (l1 l2 : List (Key × β))
    (hk : l1.map Prod.fst = l2.map Prod.fst) (hnd : (l1.map Prod.fst).Nodup)
    (hl : ∀ k, UnorderedMap.lookup l1 k = UnorderedMap.lookup l2 k) : l1 = l2 := by
  induction l1 generalizing l2 with
  | nil =>
    cases l2 with
    | nil => rfl
    | cons e2 t2 => simp at hk
  | cons e1 t1 ih =>
    cases l2 with
    | nil => simp at hk
    | cons e2 t2 =>
      simp only [List.map_cons, List.cons.injEq] at hk
      obtain ⟨hfst, htl⟩ := hk
      rw [List.map_cons, List.nodup_cons] at hnd
      have hsnd : e1.2 = e2.2 := by
        have := hl e1.1
        simp only [UnorderedMap.lookup, if_true, hfst.symm] at this
        exact Option.some.inj this
      have he : e1 = e2 := Prod.ext hfst hsnd
      subst he
      congr 1
      apply ih t2 htl hnd.2
      intro k
      by_cases hk1 : e1.1 = k
      · have hn1 : k ∉ t1.map Prod.fst := hk1 ▸ hnd.1
        have hn2 : k ∉ t2.map Prod.fst := htl ▸ hn1
        rw [(UnorderedMap.lookup_eq_none_iff t1 k).mpr hn1,
          (UnorderedMap.lookup_eq_none_iff t2 k).mpr hn2]
      · have := hl k
        simpa only [UnorderedMap.lookup, hk1, if_false] using this

/-- The `Consume` calls of the `for` loop are the calls made entry by entry
against the channel store found at the start of the loop: an entry is not
affected by what was popped for the other keys before it. -/
theorem processEntries_deliveries_eq (es : List (Key × Consumer))
    (hnd : (es.map Prod.fst).Nodup) (ch : UnorderedMap Key (List Value)) :
    (processEntries es ch).2 = es.filterMap (entryDelivery ch) := by
  induction es generalizing ch with
  | nil => rfl
  | cons e es ih =>
    rw [List.map_cons, List.nodup_cons] at hnd
    cases hf : ch.find e.1 with
    | none =>
      rw [processEntries_cons_none e es ch hf, ih hnd.2,
        List.filterMap_cons_none (by simp [entryDelivery, hf])]
    | some q =>
      cases q with
      | nil =>
        rw [processEntries_cons_nil e es ch hf, ih hnd.2,
          List.filterMap_cons_none (by simp [entryDelivery, hf])]
      | cons value q =>
        rw [processEntries_cons_some e es ch value q hf]
        simp only
        have hd : entryDelivery ch e = some ⟨e.2, e.1, value⟩ := by simp [entryDelivery, hf]
        rw [List.filterMap_cons_some hd, ih hnd.2]
        congr 1
        apply List.filterMap_congr
        intro x hx
        have hne : e.1 ≠ x.1 := by
          intro hc
          apply hnd.1
          rw [hc]
          exact List.mem_map_of_mem Prod.fst hx
        simp only [entryDelivery, UnorderedMap.find_assign_ne ch e.1 x.1 q hne]

end OrderFacts

/-- C16: let `es1` and `es2` be two enumerations of the registry entries of
state `p`.  Running the `for` loop of `Process` in either order gives the same
channel store and, for every key, the same `Consume` calls; the two sequences
of `Consume` calls are rearrangements of each other. -/
theorem pass_order_independent {Key Value Consumer : Type} [DecidableEq Key]
    (p : MultiQueueProcessor Key Value Consumer) (es1 es2 : List (Key × Consumer))
    (h1 : es1.Perm p.consumers_.entries) (h2 : es2.Perm p.consumers_.entries) :
    (processEntries es1 p.channels_).1 = (processEntries es2 p.channels_).1 ∧
      (∀ k : Key,
        (processEntries es1 p.channels_).2.filter (fun d => decide (d.id = k))
          = (processEntries es2 p.channels_).2.filter (fun d => decide (d.id = k))) ∧
      ((processEntries es1 p.channels_).2).Perm (processEntries es2 p.channels_).2 := by
  have hperm : es1.Perm es2 := h1.trans h2.symm
  have hnd1 : (es1.map Prod.fst).Nodup := (h1.map Prod.fst).nodup_iff.mpr p.consumers_.nodup
  have hnd2 : (es2.map Prod.fst).Nodup := (h2.map Prod.fst).nodup_iff.mpr p.consumers_.nodup
  have hfind : ∀ k, (processEntries es1 p.channels_).1.find k
      = (processEntries es2 p.channels_).1.find k := by
    intro k
    rw [processEntries_find es1 hnd1, processEntries_find es2 hnd2]
    exact if_congr (hperm.map Prod.fst).mem_iff rfl rfl
  refine ⟨?_, fun k => ?_, ?_⟩
  · apply UnorderedMap.ext_entries
    apply entries_eq_of_lookup _ _ _ _ hfind
    · rw [processEntries_keys, processEntries_keys]
    · rw [processEntries_keys]
      exact p.channels_.nodup
  · rw [processEntries_deliveries es1 hnd1, processEntries_deliveries es2 hnd2,
      lookup_perm es1 es2 hperm hnd1 k]
  · rw [processEntries_deliveries_eq es1 hnd1, processEntries_deliveries_eq es2 hnd2]
    exact hperm.filterMap _

/-- Witness for C16: the registry of `twoKeysState` enumerated as stored and in
reverse gives the same channel store and the same two deliveries, made in
opposite orders. -/
theorem pass_order_independent_witness :
    (processEntries twoKeysState.consumers_.entries twoKeysState.channels_).1
        = (processEntries twoKeysState.consumers_.entries.reverse twoKeysState.channels_).1 ∧
      (processEntries twoKeysState.consumers_.entries twoKeysState.channels_).2
        = [⟨1, 8, 5⟩, ⟨0, 7, 1⟩] ∧
      (processEntries twoKeysState.consumers_.entries.reverse twoKeysState.channels_).2
        = [⟨0, 7, 1⟩, ⟨1, 8, 5⟩] :=
  ⟨(pass_order_independent twoKeysState twoKeysState.consumers_.entries
      twoKeysState.consumers_.entries.reverse (List.Perm.refl _) (List.reverse_perm _)).1,
    by decide, by decide⟩

/-! ## Shutdown -/

section ShutdownFacts

variable {Key Value Consumer : Type} [DecidableEq Key]

/-- Only `Stop` writes `running_`, and it writes false. -/
theorem act_running (t t1 : Threaded Key Value Consumer) (a : Action Key Value Consumer)
    (h : act t a = some t1) :
    (a = Action.Stop → t1.processor.running_ = false) ∧
      (a ≠ Action.Stop → t1.processor.running_ = t.processor.running_) := by
  cases a with
  | Subscribe id consumer => cases h; exact ⟨fun hc => (by cases hc), fun _ => rfl⟩
  | Unsubscribe id => cases h; exact ⟨fun hc => (by cases hc), fun _ => rfl⟩
  | Enqueue id value =>
    refine ⟨fun hc => (by cases hc), fun _ => ?_⟩
    cases hE : Enqueue t.processor id value with
    | none => simp only [act, hE] at h; cases h
    | some p1 =>
      simp only [act, hE] at h
      cases h
      exact (Enqueue_frame t.processor p1 id value hE).2.2.1
  | Advance =>
    cases h
    refine ⟨fun hc => (by cases hc), fun _ => ?_⟩
    cases hp : t.position with
    | condition =>
      cases hr : t.processor.running_ <;> simp [Threaded.advance, hp, hr]
    | body => simp [Threaded.advance, hp, ProcessPass]
    | returned => simp [Threaded.advance, hp]
  | Stop => cases h; exact ⟨fun _ => rfl, fun hc => absurd rfl hc⟩

theorem act_maxChannelSize (t t1 : Threaded Key Value Consumer)
    (a : Action Key Value Consumer) (h : act t a = some t1) :
    t1.processor.maxChannelSize_ = t.processor.maxChannelSize_ := by
  cases a with
  | Subscribe id consumer => cases h; rfl
  | Unsubscribe id => cases h; rfl
  | Enqueue id value =>
    cases hE : Enqueue t.processor id value with
    | none => simp only [act, hE] at h; cases h
    | some p1 =>
      simp only [act, hE] at h
      cases h
      exact (Enqueue_frame t.processor p1 id value hE).1
  | Advance =>
    cases h
    cases hp : t.position with
    | condition =>
      cases hr : t.processor.running_ <;> simp [Threaded.advance, hp, hr]
    | body => simp [Threaded.advance, hp, ProcessPass]
    | returned => simp [Threaded.advance, hp]
  | Stop => cases h; rfl

theorem exec_defined (as : List (Action Key Value Consumer)) (t : Threaded Key Value Consumer)
    (hcap : 1 ≤ t.processor.maxChannelSize_) : ∃ t1, exec t as = some t1 := by
  induction as generalizing t with
  | nil => exact ⟨t, rfl⟩
  | cons a as ih =>
    have hdef : ∃ t0, act t a = some t0 := by
      cases a with
      | Subscribe id consumer => exact ⟨_, rfl⟩
      | Unsubscribe id => exact ⟨_, rfl⟩
      | Enqueue id value =>
        obtain ⟨p1, hE⟩ := Enqueue_defined t.processor id value (Or.inl hcap)
        exact ⟨{ t with processor := p1 }, by simp only [act, hE]⟩
      | Advance => exact ⟨_, rfl⟩
      | Stop => exact ⟨_, rfl⟩
    obtain ⟨t0, h0⟩ := hdef
    have hm := act_maxChannelSize t t0 a h0
    obtain ⟨t1, h1⟩ := ih t0 (by rw [hm]; exact hcap)
    exact ⟨t1, by simp only [exec, h0]; exact h1⟩

/-- From a fresh processor the flag is true exactly until the first `Stop`. -/
theorem exec_running_iff (as : List (Action Key Value Consumer))
    (t t1 : Threaded Key Value Consumer) (h : exec t as = some t1) :
    t1.processor.running_ = true ↔ t.processor.running_ = true ∧ Action.Stop ∉ as := by
  induction as generalizing t with
  | nil =>
    cases h
    simp
  | cons a as ih =>
    cases h0 : act t a with
    | none => simp only [exec, h0] at h; cases h
    | some t0 =>
      simp only [exec, h0] at h
      rw [ih t0 h]
      obtain ⟨hstop, hother⟩ := act_running t t0 a h0
      by_cases ha : a = Action.Stop
      · rw [hstop ha]
        simp [ha]
      · rw [hother ha]
        have hne : ¬ Action.Stop = a := fun hc => ha hc.symm
        simp [hne]

/-- With the flag false and no pass in flight, nothing runs a pass, enters the
loop body or makes a `Consume` call any more. -/
theorem exec_stopped_idle (as : List (Action Key Value Consumer))
    (t t1 : Threaded Key Value Consumer) (hrun : t.processor.running_ = false)
    (hpos : t.position ≠ Position.body) (h : exec t as = some t1) :
    t1.processor.running_ = false ∧ t1.position ≠ Position.body ∧
      t1.passesRun = t.passesRun ∧ t1.processor.delivered = t.processor.delivered := by
  induction as generalizing t with
  | nil =>
    cases h
    exact ⟨hrun, hpos, rfl, rfl⟩
  | cons a as ih =>
    cases h0 : act t a with
    | none => simp only [exec, h0] at h; cases h
    | some t0 =>
      simp only [exec, h0] at h
      have hstep : t0.processor.running_ = false ∧ t0.position ≠ Position.body ∧
          t0.passesRun = t.passesRun ∧ t0.processor.delivered = t.processor.delivered := by
        cases a with
        | Subscribe id consumer => cases h0; exact ⟨hrun, hpos, rfl, rfl⟩
        | Unsubscribe id => cases h0; exact ⟨hrun, hpos, rfl, rfl⟩
        | Enqueue id value =>
          cases hE : Enqueue t.processor id value with
          | none => simp only [act, hE] at h0; cases h0
          | some p1 =>
            simp only [act, hE] at h0
            cases h0
            obtain ⟨_, _, hr, hd⟩ := Enqueue_frame t.processor p1 id value hE
            exact ⟨hr.trans hrun, hpos, rfl, hd⟩
        | Advance =>
          cases h0
          cases hp : t.position with
          | condition => simp [Threaded.advance, hp, hrun]
          | body => exact absurd hp hpos
          | returned => simp [Threaded.advance, hp, hrun]
        | Stop => cases h0; exact ⟨rfl, hpos, rfl, rfl⟩
      obtain ⟨hr0, hp0, hn0, hd0⟩ := hstep
      obtain ⟨hr1, hp1, hn1, hd1⟩ := ih t0 hr0 hp0 h
      exact ⟨hr1, hp1, hn1.trans hn0, hd1.trans hd0⟩

/-- With the flag false at most one more pass runs. -/
theorem exec_stopped (as : List (Action Key Value Consumer))
    (t t1 : Threaded Key Value Consumer) (hrun : t.processor.running_ = false)
    (h : exec t as = some t1) :
    t1.processor.running_ = false ∧ t1.passesRun ≤ t.passesRun + 1 := by
  induction as generalizing t with
  | nil =>
    cases h
    exact ⟨hrun, Nat.le_succ _⟩
  | cons a as ih =>
    by_cases hpos : t.position = Position.body
    · cases h0 : act t a with
      | none => simp only [exec, h0] at h; cases h
      | some t0 =>
        simp only [exec, h0] at h
        cases a with
        | Subscribe id consumer =>
          cases h0
          exact ih { t with processor := Subscribe t.processor id consumer } hrun h
        | Unsubscribe id =>
          cases h0
          exact ih { t with processor := Unsubscribe t.processor id } hrun h
        | Enqueue id value =>
          cases hE : Enqueue t.processor id value with
          | none => simp only [act, hE] at h0; cases h0
          | some p1 =>
            simp only [act, hE] at h0
            cases h0
            exact ih { t with processor := p1 }
              ((Enqueue_frame t.processor p1 id value hE).2.2.1.trans hrun) h
        | Advance =>
          cases h0
          have hadv : t.advance = { processor := ProcessPass t.processor
                                    position := Position.condition
                                    passesRun := t.passesRun + 1 } := by
            simp [Threaded.advance, hpos]
          rw [hadv] at h
          have hidle := exec_stopped_idle as
            { processor := ProcessPass t.processor
              position := Position.condition
              passesRun := t.passesRun + 1 } t1 hrun (by simp) h
          exact ⟨hidle.1, Nat.le_of_eq hidle.2.2.1⟩
        | Stop =>
          cases h0
          exact ih { t with processor := stop t.processor } rfl h
    · obtain ⟨hr1, _, hn1, _⟩ := exec_stopped_idle (a :: as) t t1 hrun hpos h
      exact ⟨hr1, by rw [hn1]; exact Nat.le_succ _⟩

/-- With the flag false the thread returns from `Process` within two steps. -/
theorem advance_returns (t : Threaded Key Value Consumer)
    (hrun : t.processor.running_ = false) : t.advance.advance.position = Position.returned := by
  cases hp : t.position with
  | condition => simp [Threaded.advance, hp, hrun]
  | body => simp [Threaded.advance, hp, hrun, ProcessPass]
  | returned => simp [Threaded.advance, hp]

end ShutdownFacts

/-- C14: from a fresh processor with its thread, every execution is defined when
`maxChannelSize` is at least 1, and `running_` is true exactly as long as the
destructor has not stored to it; from a state where `running_` is false it stays
false whatever happens next, at most one more pass is run, and if the thread was
not inside a loop iteration then no pass is run, the loop body is not entered
and no `Consume` call is made; and with `running_` false the thread returns
from `Process` within two of its steps, which is what `th_.join()` waits for. -/
theorem shutdown_one_way_and_bounded (Key Value Consumer : Type) [DecidableEq Key]
    (cap : Nat) :
    (1 ≤ cap → ∀ as : List (Action Key Value Consumer),
        ∃ t1, exec (Threaded.new cap) as = some t1) ∧
      (∀ (as : List (Action Key Value Consumer)) (t1 : Threaded Key Value Consumer),
        exec (Threaded.new cap) as = some t1 →
          (t1.processor.running_ = true ↔ Action.Stop ∉ as)) ∧
      (∀ (t t1 : Threaded Key Value Consumer) (as : List (Action Key Value Consumer)),
        t.processor.running_ = false → exec t as = some t1 →
          t1.processor.running_ = false ∧ t1.passesRun ≤ t.passesRun + 1 ∧
            (t.position ≠ Position.body →
              t1.passesRun = t.passesRun ∧ t1.position ≠ Position.body ∧
                t1.processor.delivered = t.processor.delivered)) ∧
      (∀ t : Threaded Key Value Consumer, t.processor.running_ = false →
        t.advance.advance.position = Position.returned) := by
  refine ⟨fun hcap as => exec_defined as _ hcap, fun as t1 h => ?_, fun t t1 as hrun h => ?_,
    fun t hrun => advance_returns t hrun⟩
  · rw [exec_running_iff as _ t1 h]
    have hnew : (Threaded.new cap : Threaded Key Value Consumer).processor.running_ = true := rfl
    simp [hnew]
  · obtain ⟨hr1, hn1⟩ := exec_stopped as t t1 hrun h
    refine ⟨hr1, hn1, fun hpos => ?_⟩
    obtain ⟨_, hp2, hn2, hd2⟩ := exec_stopped_idle as t t1 hrun hpos h
    exact ⟨hn2, hp2, hd2⟩

/-- Witness for C14: in `stoppedInFlight` the flag is false and one pass is in
flight; whatever follows, here steps of the thread around an `Enqueue`, one pass
in all has been run at the end and the flag is still false. -/
theorem shutdown_one_way_and_bounded_witness :
    ∃ t1, exec stoppedInFlight
        [Action.Advance, Action.Enqueue 7 9, Action.Advance, Action.Advance] = some t1 ∧
      t1.position = Position.returned ∧ t1.processor.delivered = [⟨0, 7, 1⟩] ∧
      t1.processor.running_ = false ∧ t1.passesRun ≤ stoppedInFlight.passesRun + 1 :=
  ⟨_, rfl, by decide, by decide,
    ((shutdown_one_way_and_bounded Nat Nat Nat 2).2.2.1 stoppedInFlight _
      [Action.Advance, Action.Enqueue 7 9, Action.Advance, Action.Advance]
      (by decide) rfl).1,
    ((shutdown_one_way_and_bounded Nat Nat Nat 2).2.2.1 stoppedInFlight _
      [Action.Advance, Action.Enqueue 7 9, Action.Advance, Action.Advance]
      (by decide) rfl).2.1⟩

end mqp
